import Mathlib

/-
Verification of the Anatsui core: the document tree with fractional sibling
ordering (packages/core/src/document/tree.rs) and the multiplayer sync engine
(packages/core/src/multiplayer/sync.rs, message.rs).

Modelling conventions:
- Rust `HashMap<K, V>` is modelled as an association list `List (K × V)` with
  insert-replaces semantics (`alistInsert`) and erase (`alistErase`).  The code
  under verification never iterates over a HashMap in an order-dependent way,
  so the association-list representation is observationally faithful.
- Rust `u32`/`u64` counters are modelled as `Nat`; no operation in the claims
  approaches the wrap-around point, so overflow is immaterial.
- `f32` values stored in nodes, cursors and messages are never subject to
  arithmetic in the modelled code (they are only stored, copied and compared
  for decoding); they are modelled as opaque 32-bit patterns (`F32`).
- `serde_json` is an external crate, not code of this repository;
  `Message::from_json`, `serde_json::from_str::<PropertyValue>` and `to_json`
  are therefore abstracted as decoder/encoder parameters of the operations
  that use them.  Every theorem quantifies over these parameters.
- `fractional_midpoint` parses two decimal strings as `f64`, averages them and
  formats the result with 15 decimals.  The parse/average step is modelled
  exactly over scaled decimal integers (mantissa over a power of ten).  On all
  inputs appearing in theorems below the `f64` computation is checked by hand
  to produce digit-for-digit the same 15-decimal output as the exact
  computation, so the model and the binary float agree there.
-/

set_option autoImplicit false

namespace Anatsui

/-! ### Association list primitives (model of `std::collections::HashMap`) -/

/-- First value bound to key `k`, mirroring `HashMap::get`. -/
def alistFind {K V : Type} [DecidableEq K] (l : List (K × V)) (k : K) : Option V :=
  match l with
  | [] => none
  | (k', v) :: rest => if k' = k then some v else alistFind rest k

/-- Replace the binding of `k` (first occurrence) or append a new one,
mirroring `HashMap::insert` / `entry(..).or_insert_with(..)` updates. -/
def alistInsert {K V : Type} [DecidableEq K] (l : List (K × V)) (k : K) (v : V) :
    List (K × V) :=
  match l with
  | [] => [(k, v)]
  | (k', v') :: rest =>
      if k' = k then (k, v) :: rest else (k', v') :: alistInsert rest k v

/-- Drop every binding of `k`, mirroring `HashMap::remove`. -/
def alistErase {K V : Type} [DecidableEq K] (l : List (K × V)) (k : K) :
    List (K × V) :=
  match l with
  | [] => []
  | (k', v) :: rest =>
      if k' = k then alistErase rest k else (k', v) :: alistErase rest k

/-- Whether the map binds the key. -/
def alistHasKey {K V : Type} [DecidableEq K] (l : List (K × V)) (k : K) : Bool :=
  (alistFind l k).isSome

/-! ### Identity, properties, values, nodes -/

/-- `ObjectId` from document/mod.rs: pair of `u32` (allocating client, local
sequence). -/
structure ObjectId where
  client_id : Nat
  sequence : Nat
deriving DecidableEq

/-- `NodeType` from document/node.rs. -/
inductive NodeType where
  | Document | Page | Frame | Group | Rectangle | Ellipse
  | Line | Vector | Text | Image | Component | Instance
deriving DecidableEq

/-- `Property` from document/properties.rs: the closed set of attribute kinds. -/
inductive Property where
  | X | Y | Width | Height | Rotation
  | Opacity | Visible | Locked
  | FillColor | FillOpacity
  | StrokeColor | StrokeWidth | StrokeOpacity | StrokeAlign | StrokeCap | StrokeJoin
  | CornerRadius
  | Text | FontFamily | FontSize | FontWeight | FontStyle | TextAlign
  | LineHeight | LetterSpacing
  | BlurRadius | ShadowColor | ShadowOffsetX | ShadowOffsetY | ShadowBlur | ShadowSpread
  | LayoutMode | LayoutDirection | LayoutGap | LayoutPadding | LayoutAlign
  | Name | Description
  | ParentId
deriving DecidableEq

/-- An `f32` value as an opaque 32-bit pattern.  The modelled code only stores
and copies these values, it never computes with them. -/
structure F32 where
  bits : Nat
deriving DecidableEq

/-- `Color` from document/properties.rs (four `f32` components). -/
structure Color where
  r : F32
  g : F32
  b : F32
  a : F32
deriving DecidableEq

/-- `PropertyValue` from document/properties.rs. -/
inductive PropertyValue where
  | Float (v : F32)
  | Int (v : Int)
  | Bool (v : Bool)
  | String (v : String)
  | Color (c : Color)
  | Vec2 (x y : F32)
  | Vec4 (x y z w : F32)
deriving DecidableEq

/-- `Node` from document/node.rs. -/
structure Node where
  id : ObjectId
  node_type : NodeType
  properties : List (Property × PropertyValue)
  order_index : String
deriving DecidableEq

/-- `Node::new`: empty property map, order index "0.5". -/
def Node.new (id : ObjectId) (node_type : NodeType) : Node :=
  { id := id, node_type := node_type, properties := [], order_index := "0.5" }

/-- `Node::get_property`. -/
def Node.get_property (n : Node) (p : Property) : Option PropertyValue :=
  alistFind n.properties p

/-- `Node::set_property`. -/
def Node.set_property (n : Node) (p : Property) (v : PropertyValue) : Node :=
  { n with properties := alistInsert n.properties p v }

/-- `Node::set_order_index`. -/
def Node.set_order_index (n : Node) (index : String) : Node :=
  { n with order_index := index }

/-! ### Fractional indexing (tree.rs `fractional_midpoint`)

The Rust function parses both keys with `str::parse::<f64>` (default `0.0`
resp. `1.0` on failure), averages, and renders with `format!("{:.15}", mid)`.
The model parses plain unsigned decimal literals into an exact scaled decimal
`mantissa / 10 ^ scale`, averages exactly, and renders with 15 decimals using
round-half-to-even (the rounding Rust's float formatter applies).  Strings
accepted by `f64` parsing but not of plain decimal shape (signs, exponents,
infinities) fall back to the same defaults as an unparsable string; no input
in the theorems below has such a shape. -/

/-- Lexicographic strict order on character lists (structural recursion, so
that it evaluates inside the kernel). -/
def charsLtB : List Char → List Char → Bool
  | [], [] => false
  | [], _ :: _ => true
  | _ :: _, [] => false
  | a :: as, b :: bs =>
      if a < b then true else if b < a then false else charsLtB as bs

/-- Byte-lexicographic strict order on strings, mirroring Rust's `str`
ordering (all strings in this development are ASCII, where code-point order
and byte order coincide).  Agrees with Lean's `String.lt`
(`strLt_iff_lt`). -/
def strLtB (a b : String) : Bool :=
  charsLtB a.data b.data

/-- Propositional form of `strLtB`. -/
def strLt (a b : String) : Prop :=
  strLtB a b = true

instance (a b : String) : Decidable (strLt a b) :=
  inferInstanceAs (Decidable (strLtB a b = true))

/-- `charsLtB` decides the lexicographic extension of the character order. -/
theorem charsLtB_iff (as : List Char) : ∀ bs : List Char,
    charsLtB as bs = true ↔ List.Lex (· < ·) as bs := by
  induction as with
  | nil =>
      intro bs
      cases bs with
      | nil =>
          simp only [charsLtB, Bool.false_eq_true, false_iff]
          intro h
          cases h
      | cons b bs =>
          simp only [charsLtB, true_iff]
          exact List.Lex.nil
  | cons a as ih =>
      intro bs
      cases bs with
      | nil =>
          simp only [charsLtB, Bool.false_eq_true, false_iff]
          intro h
          cases h
      | cons b bs =>
          by_cases hab : a < b
          · simp only [charsLtB, if_pos hab, true_iff]
            exact List.Lex.rel hab
          · by_cases hba : b < a
            · simp only [charsLtB, if_neg hab, if_pos hba, Bool.false_eq_true, false_iff]
              intro h
              cases h with
              | cons h' => exact absurd hba (lt_irrefl a)
              | rel h' => exact absurd h' hab
            · have hEq : a = b := le_antisymm (le_of_not_lt hba) (le_of_not_lt hab)
              subst hEq
              simp only [charsLtB, if_neg hab]
              rw [ih bs]
              constructor
              · exact List.Lex.cons
              · intro h
                cases h with
                | cons h' => exact h'
                | rel h' => exact absurd h' hab

/-- `strLt` coincides with Lean's lexicographic `String` order. -/
theorem strLt_iff_lt (a b : String) : strLt a b ↔ a < b := by
  rw [String.lt_iff_toList_lt]
  exact charsLtB_iff a.data b.data

/-- Value of a string of decimal digits. -/
def digitsVal (cs : List Char) : Nat :=
  cs.foldl (fun acc c => acc * 10 + (c.toNat - 48)) 0

/-- Whether all characters are decimal digits. -/
def allDigits (cs : List Char) : Bool :=
  cs.all (fun c => c.isDigit)

/-- Split a character list at the dots, mirroring `str::split('.')` /
`String.splitOn "."` (structural recursion, so that it evaluates inside the
kernel). -/
def splitOnDot : List Char → List (List Char)
  | [] => [[]]
  | c :: rest =>
      let r := splitOnDot rest
      if c = '.' then [] :: r
      else
        match r with
        | [] => [[c]]
        | h :: t => (c :: h) :: t

/-- Parse an unsigned decimal literal `intpart[.fracpart]` into
`(mantissa, scale)` with value `mantissa / 10 ^ scale`. -/
def parseDec (s : String) : Option (Nat × Nat) :=
  match splitOnDot s.data with
  | [ip] =>
      if 0 < ip.length && allDigits ip then some (digitsVal ip, 0)
      else none
  | [ip, fp] =>
      if 0 < ip.length + fp.length && allDigits ip && allDigits fp then
        some (digitsVal ip * 10 ^ fp.length + digitsVal fp, fp.length)
      else none
  | _ => none

/-- Round `num / d` to the nearest integer, ties to even. -/
def roundHalfEvenDiv (num d : Nat) : Nat :=
  let q := num / d
  let r := num % d
  if 2 * r < d then q
  else if d < 2 * r then q + 1
  else if q % 2 = 0 then q else q + 1

/-- Left-pad a numeral with zeros to 15 characters. -/
def padZeros15 (n : Nat) : String :=
  let s := Nat.repr n
  String.mk (List.replicate (15 - s.length) '0') ++ s

/-- Render `num / 10 ^ scale` with exactly 15 decimal places, mirroring
`format!("{:.15}", mid)`. -/
def formatFixed15 (num scale : Nat) : String :=
  let n := if scale ≤ 15 then num * 10 ^ (15 - scale)
           else roundHalfEvenDiv num (10 ^ (scale - 15))
  Nat.repr (n / 10 ^ 15) ++ "." ++ padZeros15 (n % 10 ^ 15)

/-- `fractional_midpoint` from tree.rs: parse (defaults 0 and 1), average,
format with 15 decimals. -/
def fractional_midpoint (a b : String) : String :=
  let av := (parseDec a).getD (0, 0)
  let bv := (parseDec b).getD (1, 0)
  let s := max av.2 bv.2
  let num := av.1 * 10 ^ (s - av.2) + bv.1 * 10 ^ (s - bv.2)
  formatFixed15 (5 * num) (s + 1)

/-! ### Document tree (tree.rs `DocumentTree`) -/

/-- `DocumentTree` from tree.rs: node map, root id, parent → ordered children
list, child → parent. -/
structure DocumentTree where
  nodes : List (ObjectId × Node)
  root_id : ObjectId
  children_map : List (ObjectId × List ObjectId)
  parent_map : List (ObjectId × ObjectId)
deriving DecidableEq

/-- `DocumentTree::new`.  The Rust constructor draws a random root id; the
model takes it as a parameter. -/
def DocumentTree.new (root_id : ObjectId) : DocumentTree :=
  { nodes := [], root_id := root_id, children_map := [], parent_map := [] }

/-- `DocumentTree::get`. -/
def DocumentTree.get (t : DocumentTree) (id : ObjectId) : Option Node :=
  alistFind t.nodes id

/-- `DocumentTree::insert`: first node of an empty tree becomes the root;
re-inserting an id replaces the node. -/
def DocumentTree.insert (t : DocumentTree) (node : Node) : DocumentTree :=
  let id := node.id
  let root_id := if t.nodes.isEmpty then id else t.root_id
  { t with root_id := root_id, nodes := alistInsert t.nodes id node }

/-- Order key used for sorting a child id: the node's `order_index`, or the
`"0.5"` fallback of `unwrap_or("0.5")` when the node is absent. -/
def orderIndexIn (nodes : List (ObjectId × Node)) (id : ObjectId) : String :=
  match alistFind nodes id with
  | some n => n.order_index
  | none => "0.5"

/-- Comparator of `set_parent`'s sort: ascending in `order_index` string
comparison (`a_index.cmp(b_index)`). -/
def childLe (nodes : List (ObjectId × Node)) (a b : ObjectId) : Bool :=
  !strLtB (orderIndexIn nodes b) (orderIndexIn nodes a)

/-- Insert an element into a sorted list, after every element it does not
strictly precede (the stable position). -/
def insortBy {α : Type} (le : α → α → Bool) (a : α) : List α → List α
  | [] => [a]
  | b :: l => if le a b then a :: b :: l else b :: insortBy le a l

/-- Stable sort (insertion sort).  Rust's `sort_by` is a stable sort, and the
output of a stable sort under a total comparator is unique, so any stable
sort models it faithfully. -/
def stableSortBy {α : Type} (le : α → α → Bool) : List α → List α
  | [] => []
  | a :: l => insortBy le a (stableSortBy le l)

/-- `DocumentTree::set_parent`: detach from the old parent's list, record the
new parent link, append to the new parent's list, re-sort that list by order
key.  Performs no existence or cycle check. -/
def DocumentTree.set_parent (t : DocumentTree) (child_id parent_id : ObjectId) :
    DocumentTree :=
  -- Remove from the old parent's children list
  let cm1 :=
    match alistFind t.parent_map child_id with
    | some old_parent_id =>
        match alistFind t.children_map old_parent_id with
        | some children =>
            alistInsert t.children_map old_parent_id
              (children.filter (fun id => !decide (id = child_id)))
        | none => t.children_map
    | none => t.children_map
  -- Update parent map
  let pm2 := alistInsert t.parent_map child_id parent_id
  -- Add to the new parent's children list (entry(..).or_insert_with(..).push)
  let cm3 := alistInsert cm1 parent_id ((alistFind cm1 parent_id).getD [] ++ [child_id])
  -- Sort children by fractional index (node map is unchanged throughout)
  let cm4 :=
    match alistFind cm3 parent_id with
    | some children => alistInsert cm3 parent_id (stableSortBy (childLe t.nodes) children)
    | none => cm3
  { t with parent_map := pm2, children_map := cm4 }

/-- `DocumentTree::parent`. -/
def DocumentTree.parent (t : DocumentTree) (child_id : ObjectId) : Option ObjectId :=
  alistFind t.parent_map child_id

/-- `DocumentTree::children`: the ordered child list, or `[]`. -/
def DocumentTree.children (t : DocumentTree) (parent_id : ObjectId) : List ObjectId :=
  (alistFind t.children_map parent_id).getD []

/-- `DocumentTree::first_page`. -/
def DocumentTree.first_page (t : DocumentTree) : Option ObjectId :=
  (t.children t.root_id).head?

/-- Step 1 of `DocumentTree::remove`: `parent_map.remove(&id)` and, when a
parent existed, filter `id` out of that parent's child list. -/
def DocumentTree.detachFromParent (t : DocumentTree) (id : ObjectId) : DocumentTree :=
  match alistFind t.parent_map id with
  | some parent_id =>
      match alistFind t.children_map parent_id with
      | some children =>
          { t with parent_map := alistErase t.parent_map id,
                   children_map :=
              (alistInsert t.children_map parent_id
                (children.filter (fun cid => !decide (cid = id)))) }
      | none => { t with parent_map := alistErase t.parent_map id }
  | none => { t with parent_map := alistErase t.parent_map id }

mutual
/-- `DocumentTree::remove`, fuel-indexed.  Each recursion level erases the
current id's `children_map` entry before recursing, so the recursion depth is
bounded by the number of `children_map` entries; with `fuel >
children_map.length` the fuel floor is never reached.  The second component is
the list of ids on which a removal call ran (ghost data used by the proofs;
the Rust function returns nothing). -/
def removeAux : Nat → DocumentTree → ObjectId → DocumentTree × List ObjectId
  | 0, t, _ => (t, [])
  | fuel + 1, t, id =>
    let t1 := t.detachFromParent id
    match alistFind t1.children_map id with
    | some children =>
        let t2 := { t1 with children_map := alistErase t1.children_map id }
        let r := removeListAux fuel t2 children
        ({ r.1 with nodes := alistErase r.1.nodes id }, id :: r.2)
    | none => ({ t1 with nodes := alistErase t1.nodes id }, [id])
  termination_by fuel _ _ => (fuel, 0)

/-- The `for child_id in children { self.remove(child_id) }` loop of
`DocumentTree::remove`. -/
def removeListAux : Nat → DocumentTree → List ObjectId → DocumentTree × List ObjectId
  | _, t, [] => (t, [])
  | fuel, t, c :: rest =>
      let r := removeAux fuel t c
      let r' := removeListAux fuel r.1 rest
      (r'.1, r.2 ++ r'.2)
  termination_by fuel _ l => (fuel, l.length + 1)
end

/-- `DocumentTree::remove`: recursively delete `id` and its subtree.  The fuel
`children_map.length + 1` always suffices (see `removeAux`). -/
def DocumentTree.remove (t : DocumentTree) (id : ObjectId) : DocumentTree :=
  (removeAux (t.children_map.length + 1) t id).1

/-- `DocumentTree::move_before`: reparent `node_id` to `before_id`'s parent,
then give it the midpoint key between `before_id`'s previous sibling (or "0")
and `before_id`.  The child list is not re-sorted after the key update. -/
def DocumentTree.move_before (t : DocumentTree) (node_id before_id : ObjectId) :
    DocumentTree :=
  match alistFind t.parent_map before_id with
  | none => t
  | some parent_id =>
    let t1 := t.set_parent node_id parent_id
    match alistFind t1.children_map parent_id with
    | none => t1
    | some children =>
      match children.findIdx? (fun id => decide (id = before_id)) with
      | none => t1
      | some before_idx =>
        let before_index :=
          match alistFind t1.nodes before_id with
          | some n => n.order_index
          | none => "0.5"
        let prev_index :=
          if 0 < before_idx then
            match (children.get? (before_idx - 1)).bind
                (fun cid => alistFind t1.nodes cid) with
            | some n => n.order_index
            | none => "0"
          else "0"
        let new_index := fractional_midpoint prev_index before_index
        match alistFind t1.nodes node_id with
        | some node =>
            { t1 with nodes :=
                alistInsert t1.nodes node_id (node.set_order_index new_index) }
        | none => t1

/-- `DocumentTree::move_after`: reparent `node_id` to `after_id`'s parent, then
give it the midpoint key between `after_id` and its next sibling (or "1").
The child list is not re-sorted after the key update. -/
def DocumentTree.move_after (t : DocumentTree) (node_id after_id : ObjectId) :
    DocumentTree :=
  match alistFind t.parent_map after_id with
  | none => t
  | some parent_id =>
    let t1 := t.set_parent node_id parent_id
    match alistFind t1.children_map parent_id with
    | none => t1
    | some children =>
      match children.findIdx? (fun id => decide (id = after_id)) with
      | none => t1
      | some after_idx =>
        let after_index :=
          match alistFind t1.nodes after_id with
          | some n => n.order_index
          | none => "0.5"
        let next_index :=
          match (children.get? (after_idx + 1)).bind
              (fun cid => alistFind t1.nodes cid) with
          | some n => n.order_index
          | none => "1"
        let new_index := fractional_midpoint after_index next_index
        match alistFind t1.nodes node_id with
        | some node =>
            { t1 with nodes :=
                alistInsert t1.nodes node_id (node.set_order_index new_index) }
        | none => t1

/-! ### Document wrapper (document/mod.rs `Document`) -/

/-- `Document` from document/mod.rs. -/
structure Document where
  tree : DocumentTree
  name : String
  version : Nat
deriving DecidableEq

/-- `Document::set_node_property`: update the property when the node exists
(bumping the version), silently no-op otherwise. -/
def Document.set_node_property (d : Document) (id : ObjectId) (property : Property)
    (value : PropertyValue) : Document :=
  match alistFind d.tree.nodes id with
  | some node =>
      { d with
        tree := { d.tree with
          nodes := alistInsert d.tree.nodes id (node.set_property property value) },
        version := d.version + 1 }
  | none => d

/-- Observable value of a property on a node of a document. -/
def Document.node_property (d : Document) (id : ObjectId) (property : Property) :
    Option PropertyValue :=
  (alistFind d.tree.nodes id).bind (fun n => n.get_property property)

/-! ### Multiplayer messages and sync engine (multiplayer/) -/

/-- `ClientId` from multiplayer/mod.rs. -/
structure ClientId where
  value : Nat
deriving DecidableEq

/-- `UserCursor` from multiplayer/mod.rs. -/
structure UserCursor where
  client_id : ClientId
  name : String
  color : String
  x : F32
  y : F32
deriving DecidableEq

/-- `UserCursor::new` (position starts at 0.0, 0.0 — bit pattern 0). -/
def UserCursor.new (client_id : ClientId) (name color : String) : UserCursor :=
  { client_id := client_id, name := name, color := color, x := ⟨0⟩, y := ⟨0⟩ }

/-- `UserCursor::set_position`. -/
def UserCursor.set_position (c : UserCursor) (x y : F32) : UserCursor :=
  { c with x := x, y := y }

/-- The `USER_COLORS` table from multiplayer/mod.rs. -/
def userColors : List String :=
  ["#F24E1E", "#A259FF", "#1ABCFE", "#0ACF83",
   "#FF7262", "#FFC700", "#00C2FF", "#C7B9FF"]

/-- `get_user_color`: index the color table by client id modulo its length. -/
def get_user_color (client_id : ClientId) : String :=
  userColors.getD (client_id.value % userColors.length) ""

/-- `Message` from multiplayer/message.rs: the wire protocol. -/
inductive Message where
  | Join (document_id : String) (client_name : String)
  | JoinAck (client_id : Nat) (document_state : String)
  | Leave (client_id : Nat)
  | CursorMove (client_id : Nat) (x : F32) (y : F32)
  | PropertyChange (client_id : Nat) (object_id : ObjectId) (property : Property)
      (value : String) (sequence : Nat)
  | CreateObject (client_id : Nat) (object_id : ObjectId) (object_type : String)
      (parent_id : ObjectId) (order_index : String) (sequence : Nat)
  | DeleteObject (client_id : Nat) (object_id : ObjectId) (sequence : Nat)
  | MoveObject (client_id : Nat) (object_id : ObjectId) (new_parent_id : ObjectId)
      (order_index : String) (sequence : Nat)
  | Ack (sequence : Nat)
  | SelectionChange (client_id : Nat) (selected_ids : List ObjectId)
  | Error (code : Nat) (message : String)
  | Ping
  | Pong
deriving DecidableEq

/-- `PendingChange` from multiplayer/sync.rs. -/
structure PendingChange where
  object_id : ObjectId
  property : Property
  value : PropertyValue
  sequence : Nat
deriving DecidableEq

/-- `SyncEngine` state from multiplayer/sync.rs. -/
structure SyncEngine where
  client_id : Option ClientId
  sequence : Nat
  pending_changes : List PendingChange
  cursors : List (Nat × UserCursor)
  connected : Bool
deriving DecidableEq

/-- `SyncEngine::new`. -/
def SyncEngine.new : SyncEngine :=
  { client_id := none, sequence := 0, pending_changes := [], cursors := [],
    connected := false }

/-- `SyncEngine::has_pending_change`: any pending entry with this
(object, property) pair. -/
def SyncEngine.has_pending_change (e : SyncEngine) (object_id : ObjectId)
    (property : Property) : Bool :=
  e.pending_changes.any
    (fun c => decide (c.object_id = object_id) && decide (c.property = property))

/-- `SyncEngine::create_property_change_message`: when a client id is assigned,
increment the sequence counter and emit a PropertyChange carrying the new
value; otherwise do nothing.  `to_json` abstracts `Message::to_json`
(serde_json, external crate). -/
def SyncEngine.create_property_change_message (to_json : Message → String)
    (e : SyncEngine) (object_id : ObjectId) (property : Property) (value : String) :
    SyncEngine × Option String :=
  match e.client_id with
  | none => (e, none)
  | some id =>
      let e' := { e with sequence := e.sequence + 1 }
      (e', some (to_json
        (Message.PropertyChange id.value object_id property value e'.sequence)))

/-- `SyncEngine::add_pending_change`: increment the sequence counter and push a
pending entry carrying the new value. -/
def SyncEngine.add_pending_change (e : SyncEngine) (object_id : ObjectId)
    (property : Property) (value : PropertyValue) : SyncEngine :=
  { e with
    sequence := e.sequence + 1,
    pending_changes := e.pending_changes ++
      [{ object_id := object_id, property := property, value := value,
         sequence := e.sequence + 1 }] }

/-- `SyncEngine::process_message`.  `from_json` abstracts
`Message::from_json` and `decode_value` abstracts
`serde_json::from_str::<PropertyValue>` (both serde_json, an external crate);
`to_json` abstracts `Message::to_json`.  Returns the new engine state, the new
document, and the optional outbound payload. -/
def SyncEngine.process_message (from_json : String → Option Message)
    (decode_value : String → Option PropertyValue) (to_json : Message → String)
    (e : SyncEngine) (json : String) (document : Document) :
    SyncEngine × Document × Option String :=
  match from_json json with
  | none => (e, document, none)
  | some message =>
    match message with
    | Message.JoinAck client_id _ =>
        ({ e with client_id := some ⟨client_id⟩, connected := true }, document, none)
    | Message.CursorMove client_id x y =>
        match alistFind e.cursors client_id with
        | some cursor =>
            ({ e with cursors :=
                (alistInsert e.cursors client_id (cursor.set_position x y)) },
             document, none)
        | none =>
            let cursor := (UserCursor.new ⟨client_id⟩
              ("User " ++ Nat.repr client_id) (get_user_color ⟨client_id⟩)).set_position x y
            ({ e with cursors := alistInsert e.cursors client_id cursor },
             document, none)
    | Message.PropertyChange _ object_id property value _ =>
        if e.has_pending_change object_id property then (e, document, none)
        else
          match decode_value value with
          | some prop_value =>
              (e, document.set_node_property object_id property prop_value, none)
          | none => (e, document, none)
    | Message.Ack sequence =>
        ({ e with pending_changes :=
            (e.pending_changes.filter (fun c => !decide (c.sequence = sequence))) },
         document, none)
    | Message.Leave client_id =>
        ({ e with cursors := alistErase e.cursors client_id }, document, none)
    | Message.Ping => (e, document, some (to_json Message.Pong))
    | _ => (e, document, none)

/-! ### Association list lemmas -/

theorem alistFind_nil {K V : Type} [DecidableEq K] (k : K) :
    alistFind ([] : List (K × V)) k = none := rfl

theorem alistFind_insert_self {K V : Type} [DecidableEq K]
    (l : List (K × V)) (k : K) (v : V) : alistFind (alistInsert l k v) k = some v := by
  induction l with
  | nil => simp [alistInsert, alistFind]
  | cons p rest ih =>
      by_cases h : p.1 = k
      · simp [alistInsert, alistFind, h]
      · simp only [alistInsert]
        rw [if_neg h]
        simp [alistFind, h, ih]

theorem alistFind_insert_ne {K V : Type} [DecidableEq K]
    (l : List (K × V)) (k k' : K) (v : V) (h : k' ≠ k) :
    alistFind (alistInsert l k v) k' = alistFind l k' := by
  have hkk : k ≠ k' := fun hh => h hh.symm
  induction l with
  | nil => simp [alistInsert, alistFind, hkk]
  | cons p rest ih =>
      by_cases hp : p.1 = k
      · have hp' : p.1 ≠ k' := by rw [hp]; exact hkk
        simp only [alistInsert, if_pos hp]
        simp [alistFind, hkk, hp']
      · simp only [alistInsert, if_neg hp]
        by_cases hk : p.1 = k'
        · simp [alistFind, hk]
        · simp [alistFind, hk, ih]

theorem alistFind_erase_self {K V : Type} [DecidableEq K]
    (l : List (K × V)) (k : K) : alistFind (alistErase l k) k = none := by
  induction l with
  | nil => rfl
  | cons p rest ih =>
      obtain ⟨pk, pv⟩ := p
      by_cases h : pk = k
      · simpa [alistErase, h] using ih
      · simpa [alistErase, h, alistFind] using ih

theorem alistFind_erase_ne {K V : Type} [DecidableEq K]
    (l : List (K × V)) (k k' : K) (h : k' ≠ k) :
    alistFind (alistErase l k) k' = alistFind l k' := by
  induction l with
  | nil => rfl
  | cons p rest ih =>
      obtain ⟨pk, pv⟩ := p
      by_cases hp : pk = k
      · have hp' : pk ≠ k' := by rw [hp]; exact fun hh => h hh.symm
        simpa [alistErase, hp, alistFind, hp', Ne.symm h] using ih
      · by_cases hk : pk = k'
        · simp [alistErase, hp, alistFind, hk, h]
        · simpa [alistErase, hp, alistFind, hk] using ih

theorem alistErase_of_find_none {K V : Type} [DecidableEq K]
    (l : List (K × V)) (k : K) (h : alistFind l k = none) : alistErase l k = l := by
  induction l with
  | nil => rfl
  | cons p rest ih =>
      obtain ⟨pk, pv⟩ := p
      by_cases hp : pk = k
      · simp [alistFind, hp] at h
      · simp only [alistFind, if_neg hp] at h
        simp [alistErase, hp, ih h]

/-- A found value comes from an entry of the list. -/
theorem alistFind_mem {K V : Type} [DecidableEq K]
    (l : List (K × V)) (k : K) (v : V) (h : alistFind l k = some v) : (k, v) ∈ l := by
  induction l with
  | nil => simp [alistFind] at h
  | cons p rest ih =>
      obtain ⟨pk, pv⟩ := p
      by_cases hp : pk = k
      · simp only [alistFind, if_pos hp] at h
        subst hp
        injection h with h2
        subst h2
        exact List.mem_cons_self _ _
      · simp only [alistFind, if_neg hp] at h
        exact List.mem_cons_of_mem _ (ih h)

theorem alistFind_erase_sub {K V : Type} [DecidableEq K]
    (l : List (K × V)) (k0 k : K) (v : V)
    (h : alistFind (alistErase l k0) k = some v) : alistFind l k = some v := by
  by_cases hk : k = k0
  · subst hk
    rw [alistFind_erase_self] at h
    cases h
  · rwa [alistFind_erase_ne l k0 k hk] at h

theorem alistInsert_length_of_find_some {K V : Type} [DecidableEq K]
    (l : List (K × V)) (k : K) (v v0 : V) (h : alistFind l k = some v0) :
    (alistInsert l k v).length = l.length := by
  induction l with
  | nil => simp [alistFind] at h
  | cons p rest ih =>
      obtain ⟨pk, pv⟩ := p
      by_cases hp : pk = k
      · simp [alistInsert, hp]
      · simp only [alistFind, if_neg hp] at h
        simp [alistInsert, hp, ih h]

theorem alistErase_length_le {K V : Type} [DecidableEq K]
    (l : List (K × V)) (k : K) : (alistErase l k).length ≤ l.length := by
  induction l with
  | nil => simp [alistErase]
  | cons p rest ih =>
      obtain ⟨pk, pv⟩ := p
      by_cases hp : pk = k
      · simp only [alistErase, if_pos hp]
        exact Nat.le_succ_of_le ih
      · simp only [alistErase, if_neg hp, List.length_cons]
        exact Nat.succ_le_succ ih

theorem alistErase_length_lt_of_find_some {K V : Type} [DecidableEq K]
    (l : List (K × V)) (k : K) (v : V) (h : alistFind l k = some v) :
    (alistErase l k).length < l.length := by
  induction l with
  | nil => simp [alistFind] at h
  | cons p rest ih =>
      obtain ⟨pk, pv⟩ := p
      by_cases hp : pk = k
      · simp only [alistErase, if_pos hp, List.length_cons]
        exact Nat.lt_succ_of_le (alistErase_length_le rest k)
      · simp only [alistFind, if_neg hp] at h
        simp only [alistErase, if_neg hp, List.length_cons]
        exact Nat.succ_lt_succ (ih h)

theorem alistHasKey_insert_of {K V : Type} [DecidableEq K]
    (l : List (K × V)) (k k' : K) (v : V) (h : alistHasKey l k = true) :
    alistHasKey (alistInsert l k' v) k = true := by
  by_cases hk : k = k'
  · subst hk
    simp [alistHasKey, alistFind_insert_self]
  · simpa [alistHasKey, alistFind_insert_ne l k' k v hk] using h

theorem alistFind_of_hasKey_false {K V : Type} [DecidableEq K]
    (l : List (K × V)) (k : K) (h : alistHasKey l k = false) :
    alistFind l k = none := by
  cases hf : alistFind l k with
  | none => rfl
  | some v =>
      rw [alistHasKey, hf] at h
      cases h

/-! ### Stable sort membership -/

theorem mem_insortBy {α : Type} (le : α → α → Bool) (a x : α) (l : List α) :
    x ∈ insortBy le a l ↔ x = a ∨ x ∈ l := by
  induction l with
  | nil => simp [insortBy]
  | cons b rest ih =>
      by_cases h : le a b
      · simp [insortBy, h]
      · simp only [insortBy, if_neg h, List.mem_cons, ih]
        tauto

theorem mem_stableSortBy {α : Type} (le : α → α → Bool) (x : α) (l : List α) :
    x ∈ stableSortBy le l ↔ x ∈ l := by
  induction l with
  | nil => simp [stableSortBy]
  | cons a rest ih => simp [stableSortBy, mem_insortBy, ih]

/-! ### `detachFromParent` characterization -/

theorem detach_nodes (t : DocumentTree) (id : ObjectId) :
    (t.detachFromParent id).nodes = t.nodes := by
  unfold DocumentTree.detachFromParent
  split
  · split <;> rfl
  · rfl

theorem detach_root (t : DocumentTree) (id : ObjectId) :
    (t.detachFromParent id).root_id = t.root_id := by
  unfold DocumentTree.detachFromParent
  split
  · split <;> rfl
  · rfl

theorem detach_pm (t : DocumentTree) (id : ObjectId) :
    (t.detachFromParent id).parent_map = alistErase t.parent_map id := by
  unfold DocumentTree.detachFromParent
  split
  · split <;> rfl
  · rfl

/-- After detaching, every original children entry survives at the same key,
losing at most the detached id. -/
theorem detach_cm_super (t : DocumentTree) (id : ObjectId) (k : ObjectId)
    (l : List ObjectId) (h : alistFind t.children_map k = some l) :
    ∃ l', alistFind (t.detachFromParent id).children_map k = some l' ∧
      l' ⊆ l ∧ (∀ c ∈ l, c ∈ l' ∨ c = id) := by
  unfold DocumentTree.detachFromParent
  split
  next pid hpm =>
    split
    next children hcm =>
      by_cases hk : k = pid
      · subst hk
        rw [h] at hcm
        cases hcm
        refine ⟨l.filter (fun cid => !decide (cid = id)), ?_, ?_, ?_⟩
        · simp [alistFind_insert_self]
        · intro c hc
          simp only [List.mem_filter] at hc
          exact hc.1
        · intro c hc
          by_cases hcid : c = id
          · exact Or.inr hcid
          · exact Or.inl (by simp [List.mem_filter, hc, hcid])
      · refine ⟨l, ?_, List.Subset.refl l, fun c hc => Or.inl hc⟩
        simpa [alistFind_insert_ne _ pid k _ hk] using h
    next hcm => exact ⟨l, h, List.Subset.refl l, fun c hc => Or.inl hc⟩
  next hpm => exact ⟨l, h, List.Subset.refl l, fun c hc => Or.inl hc⟩

/-- The dual of `detach_cm_super`: every surviving entry comes from an
original one, as a sublist. -/
theorem detach_cm_sub (t : DocumentTree) (id : ObjectId) (k : ObjectId)
    (l' : List ObjectId)
    (h : alistFind (t.detachFromParent id).children_map k = some l') :
    ∃ l, alistFind t.children_map k = some l ∧ l' ⊆ l := by
  unfold DocumentTree.detachFromParent at h
  split at h
  next pid hpm =>
    split at h
    next children hcm =>
      by_cases hk : k = pid
      · subst hk
        rw [alistFind_insert_self] at h
        cases h
        refine ⟨children, hcm, ?_⟩
        intro c hc
        simp only [List.mem_filter] at hc
        exact hc.1
      · rw [alistFind_insert_ne _ pid k _ hk] at h
        exact ⟨l', h, List.Subset.refl l'⟩
    next hcm => exact ⟨l', h, List.Subset.refl l'⟩
  next hpm => exact ⟨l', h, List.Subset.refl l'⟩

/-- Detaching does not change the number of children entries. -/
theorem detach_cm_length (t : DocumentTree) (id : ObjectId) :
    (t.detachFromParent id).children_map.length = t.children_map.length := by
  unfold DocumentTree.detachFromParent
  split
  next pid hpm =>
    split
    next children hcm => exact alistInsert_length_of_find_some _ pid _ children hcm
    next hcm => rfl
  next hpm => rfl

/-- After detaching, the detached id is absent from its recorded parent's
children list. -/
theorem detach_cm_filter (t : DocumentTree) (id pid : ObjectId)
    (hpm : alistFind t.parent_map id = some pid) (l' : List ObjectId)
    (h : alistFind (t.detachFromParent id).children_map pid = some l') :
    id ∉ l' := by
  unfold DocumentTree.detachFromParent at h
  split at h
  next pid' hpm' =>
    rw [hpm] at hpm'
    cases hpm'
    split at h
    next children hcm =>
      rw [alistFind_insert_self] at h
      cases h
      intro hmem
      simp [List.mem_filter] at hmem
    next hcm =>
      rw [h] at hcm
      cases hcm
  next hpm' =>
    rw [hpm] at hpm'
    cases hpm'

/-! ### Unfolding equations for the removal recursion -/

/-- The state after `remove`'s steps 1 and 2: detached from the parent, the
own children entry erased. -/
def detachErased (t : DocumentTree) (id : ObjectId) : DocumentTree :=
  { t.detachFromParent id with
    children_map := alistErase (t.detachFromParent id).children_map id }

theorem removeAux_zero (t : DocumentTree) (id : ObjectId) :
    removeAux 0 t id = (t, []) := by
  rw [removeAux]

theorem removeAux_succ_none (f : Nat) (t : DocumentTree) (id : ObjectId)
    (h : alistFind (t.detachFromParent id).children_map id = none) :
    removeAux (f + 1) t id =
      ({ t.detachFromParent id with
          nodes := alistErase (t.detachFromParent id).nodes id }, [id]) := by
  rw [removeAux, h]

theorem removeAux_succ_some (f : Nat) (t : DocumentTree) (id : ObjectId)
    (children : List ObjectId)
    (h : alistFind (t.detachFromParent id).children_map id = some children) :
    removeAux (f + 1) t id =
      ({ (removeListAux f (detachErased t id) children).1 with
          nodes := alistErase (removeListAux f (detachErased t id) children).1.nodes id },
       id :: (removeListAux f (detachErased t id) children).2) := by
  rw [removeAux, h]
  rfl

theorem removeListAux_nil (f : Nat) (t : DocumentTree) :
    removeListAux f t [] = (t, []) := by
  rw [removeListAux]

theorem removeListAux_cons (f : Nat) (t : DocumentTree) (c : ObjectId)
    (rest : List ObjectId) :
    removeListAux f t (c :: rest) =
      ((removeListAux f (removeAux f t c).1 rest).1,
       (removeAux f t c).2 ++ (removeListAux f (removeAux f t c).1 rest).2) := by
  rw [removeListAux]

/-! ### Monotonicity: removal only erases -/

/-- The relation "t' arose from t by erasures": every surviving parent or node
entry is an original one, every surviving children entry is a sublist of the
original at the same key, and the children map has not grown. -/
def MonoSpec (t t' : DocumentTree) : Prop :=
  (∀ k v, alistFind t'.parent_map k = some v → alistFind t.parent_map k = some v) ∧
  (∀ k n, alistFind t'.nodes k = some n → alistFind t.nodes k = some n) ∧
  (∀ k l', alistFind t'.children_map k = some l' →
      ∃ l, alistFind t.children_map k = some l ∧ l' ⊆ l) ∧
  t'.children_map.length ≤ t.children_map.length

theorem MonoSpec.rfl (t : DocumentTree) : MonoSpec t t :=
  ⟨fun _ _ h => h, fun _ _ h => h,
   fun _ l' h => ⟨l', h, List.Subset.refl l'⟩, Nat.le_refl _⟩

theorem MonoSpec.trans {a b c : DocumentTree}
    (h1 : MonoSpec a b) (h2 : MonoSpec b c) : MonoSpec a c := by
  refine ⟨fun k v h => h1.1 k v (h2.1 k v h),
          fun k n h => h1.2.1 k n (h2.2.1 k n h), ?_,
          Nat.le_trans h2.2.2.2 h1.2.2.2⟩
  intro k l'' h
  obtain ⟨l', hb, hsub⟩ := h2.2.2.1 k l'' h
  obtain ⟨l, ha, hsub'⟩ := h1.2.2.1 k l' hb
  exact ⟨l, ha, List.Subset.trans hsub hsub'⟩

theorem mono_detach (t : DocumentTree) (id : ObjectId) :
    MonoSpec t (t.detachFromParent id) := by
  refine ⟨?_, ?_, ?_, ?_⟩
  · intro k v h
    rw [detach_pm] at h
    exact alistFind_erase_sub _ id k v h
  · intro k n h
    rwa [detach_nodes] at h
  · intro k l' h
    exact detach_cm_sub t id k l' h
  · rw [detach_cm_length]

theorem mono_erase_cm (t : DocumentTree) (id : ObjectId) :
    MonoSpec t { t with children_map := alistErase t.children_map id } := by
  refine ⟨fun k v h => h, fun k n h => h, ?_, alistErase_length_le _ id⟩
  intro k l' h
  exact ⟨l', alistFind_erase_sub _ id k l' h, List.Subset.refl l'⟩

theorem mono_erase_nodes (t : DocumentTree) (id : ObjectId) :
    MonoSpec t { t with nodes := alistErase t.nodes id } := by
  refine ⟨fun k v h => h, ?_, fun k l' h => ⟨l', h, List.Subset.refl l'⟩, Nat.le_refl _⟩
  intro k n h
  exact alistFind_erase_sub _ id k n h

/-- Removal only erases: both recursion entry points produce a state related
to the input by `MonoSpec`. -/
theorem mono_bundle : ∀ f : Nat,
    (∀ t id, MonoSpec t (removeAux f t id).1) ∧
    (∀ t l, MonoSpec t (removeListAux f t l).1) := by
  intro f
  induction f with
  | zero =>
      constructor
      · intro t id
        rw [removeAux_zero]
        exact MonoSpec.rfl t
      · intro t l
        induction l generalizing t with
        | nil =>
            rw [removeListAux_nil]
            exact MonoSpec.rfl t
        | cons c rest ih =>
            rw [removeListAux_cons, removeAux_zero]
            exact ih t
  | succ f ihf =>
      have hAux : ∀ t id, MonoSpec t (removeAux (f + 1) t id).1 := by
        intro t id
        cases h : alistFind (t.detachFromParent id).children_map id with
        | none =>
            rw [removeAux_succ_none f t id h]
            exact (mono_detach t id).trans (mono_erase_nodes _ id)
        | some children =>
            rw [removeAux_succ_some f t id children h]
            exact ((mono_detach t id).trans (mono_erase_cm _ id)).trans
              ((ihf.2 _ children).trans (mono_erase_nodes _ id))
      refine ⟨hAux, ?_⟩
      intro t l
      induction l generalizing t with
      | nil =>
          rw [removeListAux_nil]
          exact MonoSpec.rfl t
      | cons c rest ih =>
          rw [removeListAux_cons]
          exact (hAux t c).trans (ih _)

/-! ### Visited-id accounting for the removal recursion -/

theorem alistFind_erase_none {K V : Type} [DecidableEq K]
    (l : List (K × V)) (k0 k : K) (h : alistFind l k = none) :
    alistFind (alistErase l k0) k = none := by
  by_cases hk : k = k0
  · subst hk
    exact alistFind_erase_self l k
  · rwa [alistFind_erase_ne l k0 k hk]

theorem mono_none_pm {a b : DocumentTree} (h : MonoSpec a b) (k : ObjectId)
    (hn : alistFind a.parent_map k = none) : alistFind b.parent_map k = none := by
  cases hf : alistFind b.parent_map k with
  | none => rfl
  | some v => rw [h.1 k v hf] at hn; cases hn

theorem mono_none_nodes {a b : DocumentTree} (h : MonoSpec a b) (k : ObjectId)
    (hn : alistFind a.nodes k = none) : alistFind b.nodes k = none := by
  cases hf : alistFind b.nodes k with
  | none => rfl
  | some v => rw [h.2.1 k v hf] at hn; cases hn

theorem mono_none_cm {a b : DocumentTree} (h : MonoSpec a b) (k : ObjectId)
    (hn : alistFind a.children_map k = none) : alistFind b.children_map k = none := by
  cases hf : alistFind b.children_map k with
  | none => rfl
  | some v =>
      obtain ⟨l, hl, _⟩ := h.2.2.1 k v hf
      rw [hl] at hn
      cases hn

/-- Accounting of one removal run `r` started from state `t`: visited ids are
fully erased, erasures happen only at visited ids, surviving children-list
members either persist or were themselves visited, and a visited id is gone
from its original parent's surviving list. -/
structure VisitSpec (t : DocumentTree) (r : DocumentTree × List ObjectId) : Prop where
  erased : ∀ x ∈ r.2,
    alistFind r.1.parent_map x = none ∧ alistFind r.1.nodes x = none ∧
    alistFind r.1.children_map x = none
  pmOnly : ∀ k, alistFind r.1.parent_map k = none →
    alistFind t.parent_map k ≠ none → k ∈ r.2
  nodesOnly : ∀ k, alistFind r.1.nodes k = none →
    alistFind t.nodes k ≠ none → k ∈ r.2
  cmOnly : ∀ k, alistFind r.1.children_map k = none →
    alistFind t.children_map k ≠ none → k ∈ r.2
  listOnly : ∀ p, p ∉ r.2 → ∀ l, alistFind t.children_map p = some l → ∀ c ∈ l,
    (∃ l', alistFind r.1.children_map p = some l' ∧ c ∈ l') ∨ c ∈ r.2
  filtered : ∀ d p, d ∈ r.2 → alistFind t.parent_map d = some p →
    ∀ l', alistFind r.1.children_map p = some l' → d ∉ l'

/-- The trivial accounting of a run that did nothing. -/
theorem VisitSpec.id_run (t : DocumentTree) : VisitSpec t (t, []) := by
  refine ⟨?_, ?_, ?_, ?_, ?_, ?_⟩
  · intro x hx
    cases hx
  · intro k h hne
    exact absurd h hne
  · intro k h hne
    exact absurd h hne
  · intro k h hne
    exact absurd h hne
  · intro p _ l hl c hc
    exact Or.inl ⟨l, hl, hc⟩
  · intro d p hd
    cases hd

theorem removeListAux_zero (f0 : Nat) (t : DocumentTree) (ls : List ObjectId)
    (hf : f0 = 0) : removeListAux f0 t ls = (t, []) := by
  subst hf
  induction ls generalizing t with
  | nil => rw [removeListAux_nil]
  | cons c rest ih =>
      rw [removeListAux_cons, removeAux_zero]
      simp [ih]

/-- Visited-id accounting for both recursion entry points, plus: with fuel at
least one, the started id (resp. every listed id) is visited. -/
theorem visit_bundle : ∀ f : Nat,
    (∀ t id, VisitSpec t (removeAux f t id) ∧ (1 ≤ f → id ∈ (removeAux f t id).2)) ∧
    (∀ t ls, VisitSpec t (removeListAux f t ls) ∧
      (1 ≤ f → ∀ c ∈ ls, c ∈ (removeListAux f t ls).2)) := by
  intro f
  induction f with
  | zero =>
      constructor
      · intro t id
        rw [removeAux_zero]
        exact ⟨VisitSpec.id_run t, fun h => absurd h (by decide)⟩
      · intro t ls
        rw [removeListAux_zero 0 t ls rfl]
        exact ⟨VisitSpec.id_run t, fun h => absurd h (by decide)⟩
  | succ f ihf =>
      have hAux : ∀ t id, VisitSpec t (removeAux (f + 1) t id) ∧
          id ∈ (removeAux (f + 1) t id).2 := by
        intro t id
        cases hbr : alistFind (t.detachFromParent id).children_map id with
        | none =>
            rw [removeAux_succ_none f t id hbr]
            refine ⟨⟨?_, ?_, ?_, ?_, ?_, ?_⟩, List.mem_singleton.mpr rfl⟩
            · intro x hx
              rw [List.mem_singleton] at hx
              subst hx
              refine ⟨?_, ?_, hbr⟩
              · rw [detach_pm]
                exact alistFind_erase_self t.parent_map x
              · simp only [detach_nodes]
                exact alistFind_erase_self t.nodes x
            · intro k hk hne
              rw [detach_pm] at hk
              by_cases hkid : k = id
              · exact List.mem_singleton.mpr hkid
              · rw [alistFind_erase_ne _ id k hkid] at hk
                exact absurd hk hne
            · intro k hk hne
              simp only [detach_nodes] at hk
              by_cases hkid : k = id
              · exact List.mem_singleton.mpr hkid
              · rw [alistFind_erase_ne _ id k hkid] at hk
                exact absurd hk hne
            · intro k hk hne
              by_cases hkid : k = id
              · exact List.mem_singleton.mpr hkid
              · cases hf : alistFind t.children_map k with
                | none => exact absurd hf hne
                | some l =>
                    obtain ⟨l', hl', _, _⟩ := detach_cm_super t id k l hf
                    rw [hl'] at hk
                    cases hk
            · intro p hp l hl c hc
              obtain ⟨l', hl', _, hmem⟩ := detach_cm_super t id p l hl
              cases hmem c hc with
              | inl hc' => exact Or.inl ⟨l', hl', hc'⟩
              | inr hcid => exact Or.inr (List.mem_singleton.mpr hcid)
            · intro d p hd hpm l' hl'
              rw [List.mem_singleton] at hd
              subst hd
              exact detach_cm_filter t d p hpm l' hl'
        | some children =>
            rw [removeAux_succ_some f t id children hbr]
            have hml := (mono_bundle f).2 (detachErased t id) children
            have ihl := (ihf.2 (detachErased t id) children)
            have ihv := ihl.1
            have ht2pm : (detachErased t id).parent_map = alistErase t.parent_map id := by
              simp only [detachErased]
              exact detach_pm t id
            have ht2nodes : (detachErased t id).nodes = t.nodes := by
              simp only [detachErased]
              exact detach_nodes t id
            have ht2cmid : alistFind (detachErased t id).children_map id = none := by
              simp only [detachErased]
              exact alistFind_erase_self _ id
            have ht2cm : ∀ k, k ≠ id →
                alistFind (detachErased t id).children_map k =
                alistFind (t.detachFromParent id).children_map k := by
              intro k hk
              simp only [detachErased]
              exact alistFind_erase_ne _ id k hk
            refine ⟨⟨?_, ?_, ?_, ?_, ?_, ?_⟩, List.mem_cons_self id _⟩
            · intro x hx
              rw [List.mem_cons] at hx
              cases hx with
              | inl hxid =>
                  subst hxid
                  refine ⟨?_, ?_, ?_⟩
                  · apply mono_none_pm hml
                    rw [ht2pm]
                    exact alistFind_erase_self _ x
                  · exact alistFind_erase_self _ x
                  · exact mono_none_cm hml x ht2cmid
              | inr hx3 =>
                  obtain ⟨h1, h2, h3⟩ := ihv.erased x hx3
                  exact ⟨h1, alistFind_erase_none _ id x h2, h3⟩
            · intro k hk hne
              by_cases hkid : k = id
              · exact hkid ▸ List.mem_cons_self id _
              · apply List.mem_cons_of_mem
                apply ihv.pmOnly k hk
                rw [ht2pm, alistFind_erase_ne _ id k hkid]
                exact hne
            · intro k hk hne
              by_cases hkid : k = id
              · exact hkid ▸ List.mem_cons_self id _
              · apply List.mem_cons_of_mem
                apply ihv.nodesOnly k _ (ht2nodes ▸ hne)
                rwa [alistFind_erase_ne _ id k hkid] at hk
            · intro k hk hne
              by_cases hkid : k = id
              · exact hkid ▸ List.mem_cons_self id _
              · apply List.mem_cons_of_mem
                apply ihv.cmOnly k hk
                rw [ht2cm k hkid]
                cases hf2 : alistFind t.children_map k with
                | none => exact absurd hf2 hne
                | some l =>
                    obtain ⟨l', hl', _, _⟩ := detach_cm_super t id k l hf2
                    rw [hl']
                    exact fun hh => by cases hh
            · intro p hp l hl c hc
              have hpid : p ≠ id := fun hh => hp (hh ▸ List.mem_cons_self id _)
              have hpr : p ∉ (removeListAux f (detachErased t id) children).2 :=
                fun hh => hp (List.mem_cons_of_mem id hh)
              obtain ⟨lD, hlD, _, hmem⟩ := detach_cm_super t id p l hl
              cases hmem c hc with
              | inr hcid => exact Or.inr (hcid ▸ List.mem_cons_self id _)
              | inl hcD =>
                  have hl2 : alistFind (detachErased t id).children_map p = some lD := by
                    rw [ht2cm p hpid]
                    exact hlD
                  cases ihv.listOnly p hpr lD hl2 c hcD with
                  | inl hsurv => exact Or.inl hsurv
                  | inr hvis => exact Or.inr (List.mem_cons_of_mem id hvis)
            · intro d p hd hpm l' hl'
              by_cases hdid : d = id
              · subst hdid
                obtain ⟨l2, hl2, hsub⟩ := hml.2.2.1 p l' hl'
                have hpid : p ≠ d := by
                  intro hh
                  subst hh
                  rw [ht2cmid] at hl2
                  cases hl2
                rw [ht2cm p hpid] at hl2
                intro hmem
                exact detach_cm_filter t d p hpm l2 hl2 (hsub hmem)
              · have hd3 : d ∈ (removeListAux f (detachErased t id) children).2 := by
                  rw [List.mem_cons] at hd
                  cases hd with
                  | inl h => exact absurd h hdid
                  | inr h => exact h
                apply ihv.filtered d p hd3 _ l' hl'
                rw [ht2pm, alistFind_erase_ne _ id d hdid]
                exact hpm
      refine ⟨fun t id => ⟨(hAux t id).1, fun _ => (hAux t id).2⟩, ?_⟩
      intro t ls
      induction ls generalizing t with
      | nil =>
          rw [removeListAux_nil]
          exact ⟨VisitSpec.id_run t, fun _ c hc => by cases hc⟩
      | cons c rest ih =>
          rw [removeListAux_cons]
          have hA := hAux t c
          have hAv := hA.1
          have hIH := ih (removeAux (f + 1) t c).1
          have hIHv := hIH.1
          have hmono : MonoSpec (removeAux (f + 1) t c).1
              (removeListAux (f + 1) (removeAux (f + 1) t c).1 rest).1 :=
            (mono_bundle (f + 1)).2 _ rest
          refine ⟨⟨?_, ?_, ?_, ?_, ?_, ?_⟩, ?_⟩
          · intro x hx
            rw [List.mem_append] at hx
            cases hx with
            | inr hx2 => exact hIHv.erased x hx2
            | inl hx1 =>
                obtain ⟨h1, h2, h3⟩ := hAv.erased x hx1
                exact ⟨mono_none_pm hmono x h1, mono_none_nodes hmono x h2,
                  mono_none_cm hmono x h3⟩
          · intro k hk hne
            rw [List.mem_append]
            cases hmid : alistFind (removeAux (f + 1) t c).1.parent_map k with
            | none => exact Or.inl (hAv.pmOnly k hmid hne)
            | some v => exact Or.inr (hIHv.pmOnly k hk (by rw [hmid]; exact fun hh => by cases hh))
          · intro k hk hne
            rw [List.mem_append]
            cases hmid : alistFind (removeAux (f + 1) t c).1.nodes k with
            | none => exact Or.inl (hAv.nodesOnly k hmid hne)
            | some v => exact Or.inr (hIHv.nodesOnly k hk (by rw [hmid]; exact fun hh => by cases hh))
          · intro k hk hne
            rw [List.mem_append]
            cases hmid : alistFind (removeAux (f + 1) t c).1.children_map k with
            | none => exact Or.inl (hAv.cmOnly k hmid hne)
            | some v => exact Or.inr (hIHv.cmOnly k hk (by rw [hmid]; exact fun hh => by cases hh))
          · intro p hp l hl c' hc'
            rw [List.mem_append] at hp
            push_neg at hp
            cases hAv.listOnly p hp.1 l hl c' hc' with
            | inr hvis => exact Or.inr (List.mem_append_left _ hvis)
            | inl hsurv =>
                obtain ⟨l1, hl1, hc1⟩ := hsurv
                cases hIHv.listOnly p hp.2 l1 hl1 c' hc1 with
                | inl hsurv2 => exact Or.inl hsurv2
                | inr hvis2 => exact Or.inr (List.mem_append_right _ hvis2)
          · intro d p hd hpm l' hl'
            rw [List.mem_append] at hd
            have hcase1 : d ∈ (removeAux (f + 1) t c).2 → d ∉ l' := by
              intro hd1
              obtain ⟨l1, hl1, hsub⟩ := hmono.2.2.1 p l' hl'
              intro hmem
              exact hAv.filtered d p hd1 hpm l1 hl1 (hsub hmem)
            cases hd with
            | inl hd1 => exact hcase1 hd1
            | inr hd2 =>
                cases hmid : alistFind (removeAux (f + 1) t c).1.parent_map d with
                | none =>
                    exact hcase1 (hAv.pmOnly d hmid (by rw [hpm]; exact fun hh => by cases hh))
                | some q =>
                    have hq : alistFind t.parent_map d = some q :=
                      ((mono_bundle (f + 1)).1 t c).1 d q hmid
                    rw [hpm] at hq
                    cases hq
                    exact hIHv.filtered d p hd2 hmid l' hl'
          · intro _ c' hc'
            rw [List.mem_cons] at hc'
            rw [List.mem_append]
            cases hc' with
            | inl h => exact Or.inl (h ▸ hA.2)
            | inr h => exact Or.inr (hIH.2 (Nat.succ_le_succ (Nat.zero_le f)) c' h)

/-- Closure: with sufficient fuel, every member of a visited id's original
children entry is itself visited, for both recursion entry points. -/
theorem closure_bundle : ∀ f : Nat,
    (∀ t id, t.children_map.length < f →
      ∀ x ∈ (removeAux f t id).2, ∀ l, alistFind t.children_map x = some l →
        ∀ c ∈ l, c ∈ (removeAux f t id).2) ∧
    (∀ t ls, t.children_map.length < f →
      ∀ x ∈ (removeListAux f t ls).2, ∀ l, alistFind t.children_map x = some l →
        ∀ c ∈ l, c ∈ (removeListAux f t ls).2) := by
  intro f
  induction f with
  | zero =>
      exact ⟨fun t id h => absurd h (Nat.not_lt_zero _),
             fun t ls h => absurd h (Nat.not_lt_zero _)⟩
  | succ f ihf =>
      have hAux : ∀ t id, t.children_map.length < f + 1 →
          ∀ x ∈ (removeAux (f + 1) t id).2, ∀ l, alistFind t.children_map x = some l →
            ∀ c ∈ l, c ∈ (removeAux (f + 1) t id).2 := by
        intro t id hlen x hx l hl c hc
        cases hbr : alistFind (t.detachFromParent id).children_map id with
        | none =>
            rw [removeAux_succ_none f t id hbr] at hx ⊢
            rw [List.mem_singleton] at hx
            subst hx
            obtain ⟨l', hl', _, _⟩ := detach_cm_super t x x l hl
            rw [hbr] at hl'
            cases hl'
        | some cs =>
            rw [removeAux_succ_some f t id cs hbr] at hx ⊢
            have ht2len : (detachErased t id).children_map.length < f := by
              have h1 : (alistErase (t.detachFromParent id).children_map id).length
                  < (t.detachFromParent id).children_map.length :=
                alistErase_length_lt_of_find_some _ id cs hbr
              have h2 := detach_cm_length t id
              have : (detachErased t id).children_map.length
                  < t.children_map.length := by
                simp only [detachErased]
                omega
              omega
            have hfpos : 1 ≤ f := by omega
            have hvl1 := ((visit_bundle f).2 (detachErased t id) cs).2 hfpos
            obtain ⟨lD, hlD, _, hmem⟩ := detach_cm_super t id x l hl
            cases hmem c hc with
            | inr hcid => exact hcid ▸ List.mem_cons_self id _
            | inl hcD =>
                by_cases hxid : x = id
                · subst hxid
                  rw [hbr] at hlD
                  cases hlD
                  exact List.mem_cons_of_mem x (hvl1 c hcD)
                · have hx2 : x ∈ (removeListAux f (detachErased t id) cs).2 := by
                    rw [List.mem_cons] at hx
                    cases hx with
                    | inl h => exact absurd h hxid
                    | inr h => exact h
                  have hl2 : alistFind (detachErased t id).children_map x = some lD := by
                    simp only [detachErased]
                    rw [alistFind_erase_ne _ id x hxid]
                    exact hlD
                  exact List.mem_cons_of_mem id
                    (ihf.2 (detachErased t id) cs ht2len x hx2 lD hl2 c hcD)
      refine ⟨hAux, ?_⟩
      intro t ls
      induction ls generalizing t with
      | nil =>
          intro _ x hx
          rw [removeListAux_nil] at hx
          cases hx
      | cons c rest ih =>
          intro hlen x hx l hl c' hc'
          rw [removeListAux_cons] at hx ⊢
          simp only [List.mem_append] at hx ⊢
          have ht'len : (removeAux (f + 1) t c).1.children_map.length < f + 1 :=
            Nat.lt_of_le_of_lt ((mono_bundle (f + 1)).1 t c).2.2.2 hlen
          cases hx with
          | inl hx1 => exact Or.inl (hAux t c hlen x hx1 l hl c' hc')
          | inr hx2 =>
              by_cases hx1 : x ∈ (removeAux (f + 1) t c).2
              · exact Or.inl (hAux t c hlen x hx1 l hl c' hc')
              · cases ((visit_bundle (f + 1)).1 t c).1.listOnly x hx1 l hl c' hc' with
                | inr hvis => exact Or.inl hvis
                | inl hsurv =>
                    obtain ⟨l1, hl1, hc1⟩ := hsurv
                    exact Or.inr (ih _ ht'len x hx2 l1 hl1 c' hc1)

/-! ### The three-sibling scenario of the spec (section 8) -/

/-- Parent id of the three-sibling scenario. -/
def parent0 : ObjectId := ⟨0, 0⟩

/-- First sibling (order key "0.3"). -/
def first0 : ObjectId := ⟨0, 1⟩

/-- Second sibling (order key "0.5"). -/
def second0 : ObjectId := ⟨0, 2⟩

/-- Third sibling (order key "0.7"). -/
def third0 : ObjectId := ⟨0, 3⟩

/-- The scenario tree: a parent with children first/second/third carrying order
keys "0.3"/"0.5"/"0.7", built through the tree's own operations. -/
def siblingTree : DocumentTree :=
  (((((((DocumentTree.new parent0).insert
    (Node.new parent0 NodeType.Frame)).insert
    ((Node.new first0 NodeType.Rectangle).set_order_index "0.3")).insert
    ((Node.new second0 NodeType.Rectangle).set_order_index "0.5")).insert
    ((Node.new third0 NodeType.Rectangle).set_order_index "0.7")).set_parent
    first0 parent0).set_parent second0 parent0).set_parent third0 parent0

/-- The scenario tree after `move_before(third, second)`. -/
def siblingMoved : DocumentTree := siblingTree.move_before third0 second0

/-- Whether a list of keys is nondecreasing in string comparison. -/
def keysNondecreasing : List String → Bool
  | a :: b :: rest => !strLtB b a && keysNondecreasing (b :: rest)
  | _ => true

/-- Nondecreasing order of the listed children's order keys, the sortedness
the spec asserts for `children(parent)`. -/
def childrenKeysSorted (t : DocumentTree) (p : ObjectId) : Bool :=
  keysNondecreasing ((t.children p).map (orderIndexIn t.nodes))

/-! ### Fuel irrelevance: the fuel bound of `remove` is never reached

Each level of the removal recursion erases a present `children_map` entry
before recursing, so any fuel exceeding the number of entries computes the
same result: the model does not depend on the particular fuel chosen by
`DocumentTree.remove`. -/

theorem detachErased_length_lt (t : DocumentTree) (id : ObjectId)
    (children : List ObjectId)
    (h : alistFind (t.detachFromParent id).children_map id = some children) :
    (detachErased t id).children_map.length < t.children_map.length := by
  have h1 : (alistErase (t.detachFromParent id).children_map id).length
      < (t.detachFromParent id).children_map.length :=
    alistErase_length_lt_of_find_some _ id children h
  have h2 := detach_cm_length t id
  simp only [detachErased]
  omega

theorem removeAux_fuel_eq : ∀ n : Nat, ∀ (t : DocumentTree) (id : ObjectId) (f g : Nat),
    t.children_map.length ≤ n → t.children_map.length < f →
    t.children_map.length < g → removeAux f t id = removeAux g t id := by
  intro n
  induction n using Nat.strong_induction_on with
  | _ n IH =>
      intro t id f g hn hf hg
      cases f with
      | zero => omega
      | succ f' =>
          cases g with
          | zero => omega
          | succ g' =>
              cases hbr : alistFind (t.detachFromParent id).children_map id with
              | none =>
                  rw [removeAux_succ_none f' t id hbr, removeAux_succ_none g' t id hbr]
              | some cs =>
                  rw [removeAux_succ_some f' t id cs hbr, removeAux_succ_some g' t id cs hbr]
                  have hlt : (detachErased t id).children_map.length
                      < t.children_map.length := detachErased_length_lt t id cs hbr
                  have hlist : ∀ (ls : List ObjectId) (t' : DocumentTree),
                      t'.children_map.length < n → t'.children_map.length < f' →
                      t'.children_map.length < g' →
                      removeListAux f' t' ls = removeListAux g' t' ls := by
                    intro ls
                    induction ls with
                    | nil =>
                        intro t' _ _ _
                        rw [removeListAux_nil, removeListAux_nil]
                    | cons c rest ihls =>
                        intro t' h1 h2 h3
                        rw [removeListAux_cons, removeListAux_cons]
                        have he : removeAux f' t' c = removeAux g' t' c :=
                          IH t'.children_map.length h1 t' c f' g' (Nat.le_refl _) h2 h3
                        rw [he]
                        have hm := (mono_bundle g').1 t' c
                        have hrest : removeListAux f' (removeAux g' t' c).1 rest
                            = removeListAux g' (removeAux g' t' c).1 rest :=
                          ihls (removeAux g' t' c).1 (Nat.lt_of_le_of_lt hm.2.2.2 h1)
                            (Nat.lt_of_le_of_lt hm.2.2.2 h2)
                            (Nat.lt_of_le_of_lt hm.2.2.2 h3)
                        rw [hrest]
                  rw [hlist cs (detachErased t id) (by omega) (by omega) (by omega)]

/-- The removal model is fuel-independent: any fuel strictly larger than the
number of children entries computes exactly `DocumentTree.remove`. -/
theorem removeAux_eq_remove (t : DocumentTree) (id : ObjectId) (f : Nat)
    (hf : t.children_map.length < f) :
    (removeAux f t id).1 = t.remove id := by
  unfold DocumentTree.remove
  rw [removeAux_fuel_eq t.children_map.length t id f (t.children_map.length + 1)
    (Nat.le_refl _) hf (Nat.lt_succ_self _)]

/-! ### Tree invariants and the descendant relation -/

/-- `b` is listed among `a`'s children. -/
def childEdge (t : DocumentTree) (a b : ObjectId) : Prop :=
  b ∈ t.children a

/-- `b` is `a` or a descendant of `a` through the children lists. -/
def descendant (t : DocumentTree) (a b : ObjectId) : Prop :=
  Relation.ReflTransGen (childEdge t) a b

/-- Spec section 3, invariant 2: the parent and children indices are mutual
inverses. -/
def InvInverse (t : DocumentTree) : Prop :=
  ∀ c p : ObjectId, c ∈ t.children p ↔ alistFind t.parent_map c = some p

/-- Spec section 3, invariant 1: every id in the parent/children indices
(keys, parent values, and list members) exists in the node mapping. -/
def NoDangling (t : DocumentTree) : Prop :=
  (∀ c p : ObjectId, alistFind t.parent_map c = some p →
      alistHasKey t.nodes c = true ∧ alistHasKey t.nodes p = true) ∧
  (∀ p l, alistFind t.children_map p = some l →
      alistHasKey t.nodes p = true ∧ ∀ c ∈ l, alistHasKey t.nodes c = true)

theorem mem_children_iff (t : DocumentTree) (p c : ObjectId) :
    c ∈ t.children p ↔ ∃ l, alistFind t.children_map p = some l ∧ c ∈ l := by
  unfold DocumentTree.children
  cases h : alistFind t.children_map p with
  | none =>
      simp only [Option.getD_none, List.not_mem_nil, false_iff]
      intro hex
      obtain ⟨l, hl, _⟩ := hex
      cases hl
  | some l =>
      simp only [Option.getD_some]
      constructor
      · exact fun hc => ⟨l, rfl, hc⟩
      · intro hex
        obtain ⟨l', hl', hc⟩ := hex
        cases hl'
        exact hc

theorem detach_eq_of_pm_none (t : DocumentTree) (id : ObjectId)
    (h : alistFind t.parent_map id = none) : t.detachFromParent id = t := by
  unfold DocumentTree.detachFromParent
  rw [h, alistErase_of_find_none _ _ h]

/-! ### Claim C5: remove deletes the whole subtree and nothing survives -/

/-- Claim C5: on a tree whose parent/children indices are mutual inverses,
after `remove(id)` neither `id` nor any of its former descendants appears in
the node mapping, in any `children(...)` list, or as a key or value of the
parent index; and on a tree without dangling references, removing an id
absent from the node mapping leaves the tree unchanged. -/
theorem claim_C5_remove_subtree (t : DocumentTree) (id : ObjectId) :
    (InvInverse t →
      ∀ d, descendant t id d →
        alistFind (t.remove id).nodes d = none ∧
        alistFind (t.remove id).parent_map d = none ∧
        (∀ p, d ∉ (t.remove id).children p) ∧
        (∀ y, alistFind (t.remove id).parent_map y ≠ some d)) ∧
    (NoDangling t → alistHasKey t.nodes id = false → t.remove id = t) := by
  constructor
  · intro hInv d hd
    unfold DocumentTree.remove
    have hlen : t.children_map.length < t.children_map.length + 1 := Nat.lt_succ_self _
    have hvb := ((visit_bundle (t.children_map.length + 1)).1 t id)
    have hreach : ∀ d', descendant t id d' →
        d' ∈ (removeAux (t.children_map.length + 1) t id).2 := by
      intro d' hd'
      induction hd' with
      | refl => exact hvb.2 (Nat.succ_le_succ (Nat.zero_le _))
      | tail hab hedge ihm =>
          obtain ⟨l, hl, hcl⟩ := (mem_children_iff t _ _).mp hedge
          exact (closure_bundle (t.children_map.length + 1)).1 t id hlen _ ihm l hl _ hcl
    have hdvs := hreach d hd
    obtain ⟨hpm, hnodes, hcm⟩ := hvb.1.erased d hdvs
    refine ⟨hnodes, hpm, ?_, ?_⟩
    · intro p hmem
      obtain ⟨l', hl', hdl'⟩ := (mem_children_iff _ _ _).mp hmem
      obtain ⟨l, hl, hsub⟩ :=
        ((mono_bundle (t.children_map.length + 1)).1 t id).2.2.1 p l' hl'
      have hpmt : alistFind t.parent_map d = some p :=
        (hInv d p).mp ((mem_children_iff t p d).mpr ⟨l, hl, hsub hdl'⟩)
      exact hvb.1.filtered d p hdvs hpmt l' hl' hdl'
    · intro y hy
      have hpmt : alistFind t.parent_map y = some d :=
        ((mono_bundle (t.children_map.length + 1)).1 t id).1 y d hy
      obtain ⟨l, hl, hyl⟩ := (mem_children_iff t d y).mp ((hInv y d).mpr hpmt)
      have hyvs : y ∈ (removeAux (t.children_map.length + 1) t id).2 :=
        (closure_bundle (t.children_map.length + 1)).1 t id hlen d hdvs l hl y hyl
      rw [(hvb.1.erased y hyvs).1] at hy
      cases hy
  · intro hND hKey
    have hn : alistFind t.nodes id = none := alistFind_of_hasKey_false _ id hKey
    have hpm0 : alistFind t.parent_map id = none := by
      cases hp : alistFind t.parent_map id with
      | none => rfl
      | some p =>
          have := (hND.1 id p hp).1
          rw [alistHasKey, hn] at this
          cases this
    have hcm0 : alistFind t.children_map id = none := by
      cases hc : alistFind t.children_map id with
      | none => rfl
      | some l =>
          have := (hND.2 id l hc).1
          rw [alistHasKey, hn] at this
          cases this
    have hdet : t.detachFromParent id = t := detach_eq_of_pm_none t id hpm0
    unfold DocumentTree.remove
    rw [removeAux_succ_none _ t id (by rw [hdet]; exact hcm0)]
    rw [hdet]
    show { t with nodes := alistErase t.nodes id } = t
    rw [alistErase_of_find_none _ _ hn]

/-- Witness for C5: removing from the empty tree erases the target id and is a
no-op for the absent id. -/
theorem claim_C5_witness :
    alistFind ((DocumentTree.new parent0).remove first0).nodes first0 = none ∧
    (DocumentTree.new parent0).remove first0 = DocumentTree.new parent0 := by
  have hInv : InvInverse (DocumentTree.new parent0) := by
    intro c p
    simp [DocumentTree.children, DocumentTree.new, alistFind]
  have hND : NoDangling (DocumentTree.new parent0) := by
    constructor
    · intro c p h
      simp [DocumentTree.new, alistFind] at h
    · intro p l h
      simp [DocumentTree.new, alistFind] at h
  exact ⟨((claim_C5_remove_subtree (DocumentTree.new parent0) first0).1 hInv first0
      Relation.ReflTransGen.refl).1,
    (claim_C5_remove_subtree (DocumentTree.new parent0) first0).2 hND rfl⟩

/-! ### Claim C6: no-dangling preservation under valid arguments -/

theorem alistHasKey_of_find_some {K V : Type} [DecidableEq K]
    {l : List (K × V)} {k : K} {v : V} (h : alistFind l k = some v) :
    alistHasKey l k = true := by
  rw [alistHasKey, h]
  rfl

theorem alistHasKey_of_find_ne_none {K V : Type} [DecidableEq K]
    {l : List (K × V)} {k : K} (h : alistFind l k ≠ none) :
    alistHasKey l k = true := by
  cases hf : alistFind l k with
  | none => exact absurd hf h
  | some v => exact alistHasKey_of_find_some hf

theorem set_parent_nodes (t : DocumentTree) (c p : ObjectId) :
    (t.set_parent c p).nodes = t.nodes := rfl

theorem set_parent_root (t : DocumentTree) (c p : ObjectId) :
    (t.set_parent c p).root_id = t.root_id := rfl

theorem set_parent_pm (t : DocumentTree) (c p : ObjectId) :
    (t.set_parent c p).parent_map = alistInsert t.parent_map c p := rfl

/-- Filter step: members at any key of the updated map come from the same key
of the original. -/
theorem cm_filter_members {cm : List (ObjectId × List ObjectId)}
    {k0 : ObjectId} {l0 : List ObjectId} (f : ObjectId → Bool)
    (h0 : alistFind cm k0 = some l0) {q : ObjectId} {l' : List ObjectId}
    (h : alistFind (alistInsert cm k0 (l0.filter f)) q = some l')
    {x : ObjectId} (hx : x ∈ l') :
    ∃ l, alistFind cm q = some l ∧ x ∈ l := by
  by_cases hq : q = k0
  · subst hq
    rw [alistFind_insert_self] at h
    cases h
    exact ⟨l0, h0, (List.mem_filter.mp hx).1⟩
  · rw [alistFind_insert_ne _ k0 q _ hq] at h
    exact ⟨l', h, hx⟩

/-- Append step: members at any key are the appended id or come from the same
key of the original. -/
theorem cm_append_members {cm : List (ObjectId × List ObjectId)}
    {p c : ObjectId} {q : ObjectId} {l' : List ObjectId}
    (h : alistFind (alistInsert cm p ((alistFind cm p).getD [] ++ [c])) q = some l')
    {x : ObjectId} (hx : x ∈ l') :
    x = c ∨ ∃ l, alistFind cm q = some l ∧ x ∈ l := by
  by_cases hq : q = p
  · subst hq
    rw [alistFind_insert_self] at h
    cases h
    rw [List.mem_append] at hx
    cases hx with
    | inr hc => exact Or.inl (List.mem_singleton.mp hc)
    | inl hl =>
        right
        cases hf : alistFind cm q with
        | none => rw [hf] at hl; cases hl
        | some l => rw [hf] at hl; exact ⟨l, rfl, hl⟩
  · rw [alistFind_insert_ne _ p q _ hq] at h
    exact Or.inr ⟨l', h, hx⟩

/-- Sort step: members at any key come from the same key of the original. -/
theorem cm_sort_members {cm : List (ObjectId × List ObjectId)}
    {p : ObjectId} {l0 : List ObjectId} (le : ObjectId → ObjectId → Bool)
    (h0 : alistFind cm p = some l0) {q : ObjectId} {l' : List ObjectId}
    (h : alistFind (alistInsert cm p (stableSortBy le l0)) q = some l')
    {x : ObjectId} (hx : x ∈ l') :
    ∃ l, alistFind cm q = some l ∧ x ∈ l := by
  by_cases hq : q = p
  · subst hq
    rw [alistFind_insert_self] at h
    cases h
    exact ⟨l0, h0, (mem_stableSortBy le x l0).mp hx⟩
  · rw [alistFind_insert_ne _ p q _ hq] at h
    exact ⟨l', h, hx⟩

/-- Inversion for a map update: a found entry is at the written key or was
already present with the same value. -/
theorem alistFind_insert_inv {K V : Type} [DecidableEq K]
    {l : List (K × V)} {k0 q : K} {v w : V}
    (h : alistFind (alistInsert l k0 v) q = some w) :
    q = k0 ∨ alistFind l q = some w := by
  by_cases hq : q = k0
  · exact Or.inl hq
  · rw [alistFind_insert_ne _ k0 q _ hq] at h
    exact Or.inr h

/-- Keys and members of the children map after `set_parent`: every surviving
key is the new parent or an original key, and every member at key `q` is the
moved child or an original member at `q`. -/
theorem set_parent_cm_chars (t : DocumentTree) (c p : ObjectId) (q : ObjectId)
    (l' : List ObjectId)
    (h : alistFind (t.set_parent c p).children_map q = some l') :
    (q = p ∨ ∃ l, alistFind t.children_map q = some l) ∧
    (∀ x ∈ l', x = c ∨ ∃ l, alistFind t.children_map q = some l ∧ x ∈ l) := by
  simp only [DocumentTree.set_parent] at h
  cases hold : alistFind t.parent_map c with
  | some old =>
      simp only [hold] at h
      cases hch : alistFind t.children_map old with
      | some children =>
          simp only [hch] at h
          split at h
          next l3 h3 =>
            constructor
            · rcases alistFind_insert_inv h with hq | h2
              · exact Or.inl hq
              · rcases alistFind_insert_inv h2 with hq | h1
                · exact Or.inl hq
                · rcases alistFind_insert_inv h1 with hq | h0
                  · exact Or.inr ⟨children, hq ▸ hch⟩
                  · exact Or.inr ⟨l', h0⟩
            · intro x hx
              obtain ⟨l2, h2, hx2⟩ := cm_sort_members _ h3 h hx
              rcases cm_append_members h2 hx2 with hc | ⟨l1, h1, hx1⟩
              · exact Or.inl hc
              · obtain ⟨l, hl, hxl⟩ := cm_filter_members _ hch h1 hx1
                exact Or.inr ⟨l, hl, hxl⟩
          next h3 =>
            constructor
            · rcases alistFind_insert_inv h with hq | h1
              · exact Or.inl hq
              · rcases alistFind_insert_inv h1 with hq | h0
                · exact Or.inr ⟨children, hq ▸ hch⟩
                · exact Or.inr ⟨l', h0⟩
            · intro x hx
              rcases cm_append_members h hx with hc | ⟨l1, h1, hx1⟩
              · exact Or.inl hc
              · obtain ⟨l, hl, hxl⟩ := cm_filter_members _ hch h1 hx1
                exact Or.inr ⟨l, hl, hxl⟩
      | none =>
          simp only [hch] at h
          split at h
          next l3 h3 =>
            constructor
            · rcases alistFind_insert_inv h with hq | h2
              · exact Or.inl hq
              · rcases alistFind_insert_inv h2 with hq | h0
                · exact Or.inl hq
                · exact Or.inr ⟨l', h0⟩
            · intro x hx
              obtain ⟨l2, h2, hx2⟩ := cm_sort_members _ h3 h hx
              rcases cm_append_members h2 hx2 with hc | ⟨l1, h1, hx1⟩
              · exact Or.inl hc
              · exact Or.inr ⟨l1, h1, hx1⟩
          next h3 =>
            constructor
            · rcases alistFind_insert_inv h with hq | h0
              · exact Or.inl hq
              · exact Or.inr ⟨l', h0⟩
            · intro x hx
              rcases cm_append_members h hx with hc | ⟨l1, h1, hx1⟩
              · exact Or.inl hc
              · exact Or.inr ⟨l1, h1, hx1⟩
  | none =>
      simp only [hold] at h
      split at h
      next l3 h3 =>
        constructor
        · rcases alistFind_insert_inv h with hq | h2
          · exact Or.inl hq
          · rcases alistFind_insert_inv h2 with hq | h0
            · exact Or.inl hq
            · exact Or.inr ⟨l', h0⟩
        · intro x hx
          obtain ⟨l2, h2, hx2⟩ := cm_sort_members _ h3 h hx
          rcases cm_append_members h2 hx2 with hc | ⟨l1, h1, hx1⟩
          · exact Or.inl hc
          · exact Or.inr ⟨l1, h1, hx1⟩
      next h3 =>
        constructor
        · rcases alistFind_insert_inv h with hq | h0
          · exact Or.inl hq
          · exact Or.inr ⟨l', h0⟩
        · intro x hx
          rcases cm_append_members h hx with hc | ⟨l1, h1, hx1⟩
          · exact Or.inl hc
          · exact Or.inr ⟨l1, h1, hx1⟩

theorem find_ne_none_of_hasKey {K V : Type} [DecidableEq K]
    {l : List (K × V)} {k : K} (h : alistHasKey l k = true) :
    alistFind l k ≠ none := by
  intro hh
  rw [alistHasKey, hh] at h
  cases h

theorem ND_insert (t : DocumentTree) (hND : NoDangling t) (node : Node) :
    NoDangling (t.insert node) := by
  have hpm : (t.insert node).parent_map = t.parent_map := rfl
  have hcm : (t.insert node).children_map = t.children_map := rfl
  have hn : (t.insert node).nodes = alistInsert t.nodes node.id node := rfl
  constructor
  · intro c p h
    rw [hpm] at h
    obtain ⟨h1, h2⟩ := hND.1 c p h
    rw [hn]
    exact ⟨alistHasKey_insert_of _ _ _ _ h1, alistHasKey_insert_of _ _ _ _ h2⟩
  · intro p l h
    rw [hcm] at h
    obtain ⟨h1, h2⟩ := hND.2 p l h
    rw [hn]
    exact ⟨alistHasKey_insert_of _ _ _ _ h1,
      fun c hc => alistHasKey_insert_of _ _ _ _ (h2 c hc)⟩

theorem ND_nodes_insert (t : DocumentTree) (hND : NoDangling t) (k : ObjectId)
    (v : Node) : NoDangling { t with nodes := alistInsert t.nodes k v } := by
  constructor
  · intro c p h
    obtain ⟨h1, h2⟩ := hND.1 c p h
    exact ⟨alistHasKey_insert_of _ _ _ _ h1, alistHasKey_insert_of _ _ _ _ h2⟩
  · intro p l h
    obtain ⟨h1, h2⟩ := hND.2 p l h
    exact ⟨alistHasKey_insert_of _ _ _ _ h1,
      fun c hc => alistHasKey_insert_of _ _ _ _ (h2 c hc)⟩

theorem ND_set_parent (t : DocumentTree) (hND : NoDangling t) (c p : ObjectId)
    (hc : alistHasKey t.nodes c = true) (hp : alistHasKey t.nodes p = true) :
    NoDangling (t.set_parent c p) := by
  constructor
  · intro y q h
    rw [set_parent_pm] at h
    rw [show (t.set_parent c p).nodes = t.nodes from set_parent_nodes t c p]
    rcases alistFind_insert_inv h with hy | h0
    · subst hy
      rw [alistFind_insert_self] at h
      cases h
      exact ⟨hc, hp⟩
    · exact hND.1 y q h0
  · intro q l h
    rw [show (t.set_parent c p).nodes = t.nodes from set_parent_nodes t c p]
    obtain ⟨hkeys, hmem⟩ := set_parent_cm_chars t c p q l h
    constructor
    · cases hkeys with
      | inl hq => exact hq ▸ hp
      | inr hex =>
          obtain ⟨l0, hl0⟩ := hex
          exact (hND.2 q l0 hl0).1
    · intro x hx
      cases hmem x hx with
      | inl hxc => exact hxc ▸ hc
      | inr hex =>
          obtain ⟨l0, hl0, hxl0⟩ := hex
          exact (hND.2 q l0 hl0).2 x hxl0

theorem ND_remove (t : DocumentTree) (hND : NoDangling t) (hInv : InvInverse t)
    (id : ObjectId) : NoDangling (t.remove id) := by
  unfold DocumentTree.remove
  have hlen : t.children_map.length < t.children_map.length + 1 := Nat.lt_succ_self _
  have hvb := ((visit_bundle (t.children_map.length + 1)).1 t id).1
  have hmono := (mono_bundle (t.children_map.length + 1)).1 t id
  constructor
  · intro y q h
    have hyt : alistFind t.parent_map y = some q := hmono.1 y q h
    obtain ⟨hky, hkq⟩ := hND.1 y q hyt
    constructor
    · apply alistHasKey_of_find_ne_none
      intro hnone
      have hyvs := hvb.nodesOnly y hnone (find_ne_none_of_hasKey hky)
      rw [(hvb.erased y hyvs).1] at h
      cases h
    · apply alistHasKey_of_find_ne_none
      intro hnone
      have hqvs := hvb.nodesOnly q hnone (find_ne_none_of_hasKey hkq)
      obtain ⟨l, hl, hyl⟩ := (mem_children_iff t q y).mp ((hInv y q).mpr hyt)
      have hyvs := (closure_bundle (t.children_map.length + 1)).1 t id hlen q hqvs l hl y hyl
      rw [(hvb.erased y hyvs).1] at h
      cases h
  · intro q l' h
    obtain ⟨l, hl, hsub⟩ := hmono.2.2.1 q l' h
    obtain ⟨hkq, hkmem⟩ := hND.2 q l hl
    constructor
    · apply alistHasKey_of_find_ne_none
      intro hnone
      have hqvs := hvb.nodesOnly q hnone (find_ne_none_of_hasKey hkq)
      rw [(hvb.erased q hqvs).2.2] at h
      cases h
    · intro x hx
      apply alistHasKey_of_find_ne_none
      intro hnone
      have hxvs := hvb.nodesOnly x hnone (find_ne_none_of_hasKey (hkmem x (hsub hx)))
      have hpmx : alistFind t.parent_map x = some q :=
        (hInv x q).mp ((mem_children_iff t q x).mpr ⟨l, hl, hsub hx⟩)
      exact absurd hx (hvb.filtered x q hxvs hpmx l' h)

/-- `move_before` either does nothing, or reparents via `set_parent`, possibly
followed by a node replacement at the moved id. -/
theorem move_before_cases (t : DocumentTree) (n b : ObjectId) :
    t.move_before n b = t ∨
    ∃ pid, alistFind t.parent_map b = some pid ∧
      (t.move_before n b = t.set_parent n pid ∨
       ∃ node', t.move_before n b =
         { t.set_parent n pid with
           nodes := alistInsert (t.set_parent n pid).nodes n node' }) := by
  simp only [DocumentTree.move_before]
  split
  next hpm => exact Or.inl rfl
  next pid hpm =>
    refine Or.inr ⟨pid, hpm, ?_⟩
    split
    next h1 => exact Or.inl rfl
    next children h2 =>
      split
      next h3 => exact Or.inl rfl
      next idx h4 =>
        split
        next node h5 => exact Or.inr ⟨_, rfl⟩
        next h5 => exact Or.inl rfl

/-- `move_after` analogue of `move_before_cases`. -/
theorem move_after_cases (t : DocumentTree) (n a : ObjectId) :
    t.move_after n a = t ∨
    ∃ pid, alistFind t.parent_map a = some pid ∧
      (t.move_after n a = t.set_parent n pid ∨
       ∃ node', t.move_after n a =
         { t.set_parent n pid with
           nodes := alistInsert (t.set_parent n pid).nodes n node' }) := by
  simp only [DocumentTree.move_after]
  split
  next hpm => exact Or.inl rfl
  next pid hpm =>
    refine Or.inr ⟨pid, hpm, ?_⟩
    split
    next h1 => exact Or.inl rfl
    next children h2 =>
      split
      next h3 => exact Or.inl rfl
      next idx h4 =>
        split
        next node h5 => exact Or.inr ⟨_, rfl⟩
        next h5 => exact Or.inl rfl

theorem ND_move_before (t : DocumentTree) (hND : NoDangling t) (n b : ObjectId)
    (hn : alistHasKey t.nodes n = true) : NoDangling (t.move_before n b) := by
  rcases move_before_cases t n b with heq | ⟨pid, hpm, heq | ⟨node', heq⟩⟩
  · rwa [heq]
  · rw [heq]
    exact ND_set_parent t hND n pid hn (hND.1 b pid hpm).2
  · rw [heq]
    have hsp := ND_set_parent t hND n pid hn (hND.1 b pid hpm).2
    exact ND_nodes_insert _ hsp n node'

theorem ND_move_after (t : DocumentTree) (hND : NoDangling t) (n a : ObjectId)
    (hn : alistHasKey t.nodes n = true) : NoDangling (t.move_after n a) := by
  rcases move_after_cases t n a with heq | ⟨pid, hpm, heq | ⟨node', heq⟩⟩
  · rwa [heq]
  · rw [heq]
    exact ND_set_parent t hND n pid hn (hND.1 a pid hpm).2
  · rw [heq]
    have hsp := ND_set_parent t hND n pid hn (hND.1 a pid hpm).2
    exact ND_nodes_insert _ hsp n node'

/-- Amendment of claim C6: the claim as stated fails (see the counterexample),
but the no-dangling property is preserved by every operation under the natural
validity conditions: always for insert; for remove when the indices are
mutual inverses; and for set_parent / move_before / move_after when their
explicit node arguments exist in the node mapping. -/
theorem claim_C6_amended (t : DocumentTree) (hND : NoDangling t) :
    (∀ node, NoDangling (t.insert node)) ∧
    (∀ c p, alistHasKey t.nodes c = true → alistHasKey t.nodes p = true →
        NoDangling (t.set_parent c p)) ∧
    (InvInverse t → ∀ id, NoDangling (t.remove id)) ∧
    (∀ n b, alistHasKey t.nodes n = true → NoDangling (t.move_before n b)) ∧
    (∀ n a, alistHasKey t.nodes n = true → NoDangling (t.move_after n a)) :=
  ⟨fun node => ND_insert t hND node,
   fun c p hc hp => ND_set_parent t hND c p hc hp,
   fun hInv id => ND_remove t hND hInv id,
   fun n b hn => ND_move_before t hND n b hn,
   fun n a hn => ND_move_after t hND n a hn⟩

/-- A two-node tree with empty indices, used by the C6 witness. -/
def ndTree : DocumentTree :=
  { nodes := [(parent0, Node.new parent0 NodeType.Frame),
              (first0, Node.new first0 NodeType.Rectangle)],
    root_id := parent0, children_map := [], parent_map := [] }

/-- Witness for the amended C6 at a concrete two-node tree: a valid
`set_parent` and a `remove` both preserve the no-dangling property. -/
theorem claim_C6_witness :
    NoDangling (ndTree.set_parent first0 parent0) ∧
    NoDangling (ndTree.remove first0) := by
  have hND : NoDangling ndTree := by
    constructor
    · intro c p h
      simp [ndTree, alistFind] at h
    · intro p l h
      simp [ndTree, alistFind] at h
  have hInv : InvInverse ndTree := by
    intro c p
    simp [DocumentTree.children, ndTree, alistFind]
  exact ⟨(claim_C6_amended ndTree hND).2.1 first0 parent0 (by decide) (by decide),
         (claim_C6_amended ndTree hND).2.2.1 hInv first0⟩

/-! ### Sync engine: processing lemmas shared by several claims -/

/-- Processing an `Ack` only filters the pending list by exact sequence match:
engine keeps everything else, the document flows through untouched. -/
theorem process_message_ack (from_json : String → Option Message)
    (decode_value : String → Option PropertyValue) (to_json : Message → String)
    (e : SyncEngine) (json : String) (d : Document) (s : Nat)
    (h : from_json json = some (Message.Ack s)) :
    SyncEngine.process_message from_json decode_value to_json e json d =
      ({ e with pending_changes :=
          (e.pending_changes.filter (fun c => !decide (c.sequence = s))) }, d, none) := by
  simp [SyncEngine.process_message, h]

/-- Processing a `PropertyChange` with a pending conflict leaves everything
unchanged. -/
theorem process_message_pc_conflict (from_json : String → Option Message)
    (decode_value : String → Option PropertyValue) (to_json : Message → String)
    (e : SyncEngine) (json : String) (d : Document) (cid : Nat) (O : ObjectId)
    (P : Property) (valstr : String) (sq : Nat)
    (h : from_json json = some (Message.PropertyChange cid O P valstr sq))
    (hp : e.has_pending_change O P = true) :
    SyncEngine.process_message from_json decode_value to_json e json d =
      (e, d, none) := by
  simp [SyncEngine.process_message, h, hp]

/-- Processing a `PropertyChange` without a pending conflict applies the
decoded value to the document. -/
theorem process_message_pc_apply (from_json : String → Option Message)
    (decode_value : String → Option PropertyValue) (to_json : Message → String)
    (e : SyncEngine) (json : String) (d : Document) (cid : Nat) (O : ObjectId)
    (P : Property) (valstr : String) (sq : Nat) (pv : PropertyValue)
    (h : from_json json = some (Message.PropertyChange cid O P valstr sq))
    (hp : e.has_pending_change O P = false)
    (hdec : decode_value valstr = some pv) :
    SyncEngine.process_message from_json decode_value to_json e json d =
      (e, d.set_node_property O P pv, none) := by
  simp [SyncEngine.process_message, h, hp, hdec]

/-- When the target node exists, `set_node_property` makes the property read
back as the written value. -/
theorem set_node_property_node_property (d : Document) (O : ObjectId) (P : Property)
    (pv : PropertyValue) (n : Node) (hn : alistFind d.tree.nodes O = some n) :
    (d.set_node_property O P pv).node_property O P = some pv := by
  simp [Document.set_node_property, hn, Document.node_property,
    alistFind_insert_self, Node.get_property, Node.set_property]

/-! ### Concrete states used by witnesses -/

/-- A document with a single rectangle node `⟨1, 1⟩`, used by witnesses. -/
def witnessDoc : Document :=
  { tree :=
      { nodes := [(⟨1, 1⟩, Node.new ⟨1, 1⟩ NodeType.Rectangle)],
        root_id := ⟨1, 1⟩, children_map := [], parent_map := [] },
    name := "doc", version := 1 }

/-- An engine with two pending changes (sequences 1 and 2), used by witnesses. -/
def witnessEngine : SyncEngine :=
  { client_id := some ⟨7⟩, sequence := 2,
    pending_changes :=
      [{ object_id := ⟨1, 1⟩, property := Property.X,
         value := PropertyValue.Int 3, sequence := 1 },
       { object_id := ⟨2, 2⟩, property := Property.Y,
         value := PropertyValue.Int 4, sequence := 2 }],
    cursors := [], connected := true }

/-! ### Claim theorems: sync engine -/

/-- Claim C8: for every sync-engine state, every tree state, and every input
string that does not decode to a protocol message, `process_message` returns
no outbound payload and leaves the engine state (connection status, client
identity, sequence counter, pending set, cursors) and the document exactly
unchanged. -/
theorem claim_C8_decode_failure_noop (from_json : String → Option Message)
    (decode_value : String → Option PropertyValue) (to_json : Message → String)
    (e : SyncEngine) (json : String) (d : Document)
    (h : from_json json = none) :
    SyncEngine.process_message from_json decode_value to_json e json d =
      (e, d, none) := by
  simp [SyncEngine.process_message, h]

/-- Witness for C8 at a concrete engine, document and decoder. -/
theorem claim_C8_witness :
    SyncEngine.process_message (fun _ => none) (fun _ => none) (fun _ => "")
      witnessEngine "garbage" witnessDoc = (witnessEngine, witnessDoc, none) :=
  claim_C8_decode_failure_noop (fun _ => none) (fun _ => none) (fun _ => "")
    witnessEngine "garbage" witnessDoc rfl

/-- Claim C9: processing a well-formed CreateObject, DeleteObject, or
MoveObject message returns no outbound payload and mutates neither the
sync-engine state nor the document tree: these three variants are received but
never acted upon. -/
theorem claim_C9_unhandled_variants_noop (from_json : String → Option Message)
    (decode_value : String → Option PropertyValue) (to_json : Message → String)
    (e : SyncEngine) (json : String) (d : Document) (m : Message)
    (h : from_json json = some m)
    (hm : (∃ c oid ty pid oi sq, m = Message.CreateObject c oid ty pid oi sq) ∨
          (∃ c oid sq, m = Message.DeleteObject c oid sq) ∨
          (∃ c oid np oi sq, m = Message.MoveObject c oid np oi sq)) :
    SyncEngine.process_message from_json decode_value to_json e json d =
      (e, d, none) := by
  rcases hm with ⟨c, oid, ty, pid, oi, sq, rfl⟩ | ⟨c, oid, sq, rfl⟩ |
    ⟨c, oid, np, oi, sq, rfl⟩ <;>
    simp [SyncEngine.process_message, h]

/-- Witness for C9: a concrete DeleteObject message leaves a concrete engine
and document unchanged. -/
theorem claim_C9_witness :
    SyncEngine.process_message (fun _ => some (Message.DeleteObject 7 ⟨1, 1⟩ 3))
      (fun _ => none) (fun _ => "") witnessEngine "payload" witnessDoc =
      (witnessEngine, witnessDoc, none) :=
  claim_C9_unhandled_variants_noop
    (fun _ => some (Message.DeleteObject 7 ⟨1, 1⟩ 3)) (fun _ => none) (fun _ => "")
    witnessEngine "payload" witnessDoc (Message.DeleteObject 7 ⟨1, 1⟩ 3) rfl
    (Or.inr (Or.inl ⟨7, ⟨1, 1⟩, 3, rfl⟩))

/-- Claim C7: processing an `Ack` carrying sequence `s` removes exactly the
pending entries whose sequence equals `s`: the pending list becomes the exact-
match filter of the old one, every entry with a different sequence (lower ones
included) survives, and every survivor was already pending with sequence
different from `s`. -/
theorem claim_C7_ack_exact (from_json : String → Option Message)
    (decode_value : String → Option PropertyValue) (to_json : Message → String)
    (e : SyncEngine) (json : String) (d : Document) (s : Nat)
    (h : from_json json = some (Message.Ack s)) :
    (SyncEngine.process_message from_json decode_value to_json e json d).1.pending_changes
      = e.pending_changes.filter (fun c => !decide (c.sequence = s)) ∧
    (∀ c ∈ e.pending_changes, c.sequence ≠ s →
      c ∈ (SyncEngine.process_message from_json decode_value to_json e json d).1.pending_changes) ∧
    (∀ c ∈ (SyncEngine.process_message from_json decode_value to_json e json d).1.pending_changes,
      c ∈ e.pending_changes ∧ c.sequence ≠ s) := by
  rw [process_message_ack from_json decode_value to_json e json d s h]
  refine ⟨rfl, ?_, ?_⟩
  · intro c hc hs
    simp [List.mem_filter, hc, hs]
  · intro c hc
    simp only [List.mem_filter, Bool.not_eq_true', decide_eq_false_iff_not] at hc
    exact hc

/-- Witness for C7: acknowledging sequence 1 on a concrete engine keeps
exactly the entry with sequence 2. -/
theorem claim_C7_witness :
    (SyncEngine.process_message (fun _ => some (Message.Ack 1)) (fun _ => none)
      (fun _ => "") witnessEngine "ack" witnessDoc).1.pending_changes =
      [{ object_id := ⟨2, 2⟩, property := Property.Y,
         value := PropertyValue.Int 4, sequence := 2 }] :=
  (claim_C7_ack_exact (fun _ => some (Message.Ack 1)) (fun _ => none) (fun _ => "")
    witnessEngine "ack" witnessDoc 1 rfl).1.trans (by decide)

/-- Claim C1: with a pending local change for (O, P), a remote PropertyChange
for (O, P) leaves the tree's value of P on O unchanged; with no pending change
for (O, P) and a decodable value, it sets P on O (assumed present in the node
mapping) to the remote value; and in particular, once an Ack retiring every
(O, P)-pending sequence is processed, a subsequent remote PropertyChange for
(O, P) is applied. -/
theorem claim_C1_conflict_policy (from_json : String → Option Message)
    (decode_value : String → Option PropertyValue) (to_json : Message → String)
    (e : SyncEngine) (json ackJson : String) (d : Document) (cid : Nat)
    (O : ObjectId) (P : Property) (valstr : String) (sq s : Nat)
    (pv : PropertyValue) (n : Node)
    (h : from_json json = some (Message.PropertyChange cid O P valstr sq)) :
    (e.has_pending_change O P = true →
      (SyncEngine.process_message from_json decode_value to_json e json d).2.1.node_property O P
        = d.node_property O P) ∧
    (e.has_pending_change O P = false → decode_value valstr = some pv →
      alistFind d.tree.nodes O = some n →
      (SyncEngine.process_message from_json decode_value to_json e json d).2.1.node_property O P
        = some pv) ∧
    (from_json ackJson = some (Message.Ack s) →
      (∀ c ∈ e.pending_changes, c.object_id = O → c.property = P → c.sequence = s) →
      decode_value valstr = some pv → alistFind d.tree.nodes O = some n →
      (SyncEngine.process_message from_json decode_value to_json
        (SyncEngine.process_message from_json decode_value to_json e ackJson d).1 json
        (SyncEngine.process_message from_json decode_value to_json e ackJson d).2.1).2.1.node_property O P
        = some pv) := by
  refine ⟨?_, ?_, ?_⟩
  · intro hp
    rw [process_message_pc_conflict from_json decode_value to_json e json d
      cid O P valstr sq h hp]
  · intro hp hdec hn
    rw [process_message_pc_apply from_json decode_value to_json e json d
      cid O P valstr sq pv h hp hdec]
    exact set_node_property_node_property d O P pv n hn
  · intro hack hall hdec hn
    rw [process_message_ack from_json decode_value to_json e ackJson d s hack]
    have hp : SyncEngine.has_pending_change
        { e with pending_changes :=
            (e.pending_changes.filter (fun c => !decide (c.sequence = s))) } O P = false := by
      rw [SyncEngine.has_pending_change]
      simp only [List.any_eq_false]
      intro c hc
      simp only [List.mem_filter, Bool.not_eq_true', decide_eq_false_iff_not] at hc
      simp only [Bool.and_eq_true, decide_eq_true_eq, not_and]
      intro hO hP
      exact absurd (hall c hc.1 hO hP) hc.2
    rw [process_message_pc_apply from_json decode_value to_json _ json d
      cid O P valstr sq pv h hp hdec]
    exact set_node_property_node_property d O P pv n hn

/-- Witness for C1 (second conjunct): on a concrete engine with no pending
change for the pair, a concrete remote PropertyChange sets the property to the
decoded value. -/
theorem claim_C1_witness :
    (SyncEngine.process_message
      (fun _ => some (Message.PropertyChange 9 ⟨1, 1⟩ Property.Width "13" 5))
      (fun _ => some (PropertyValue.Int 13)) (fun _ => "")
      witnessEngine "pc" witnessDoc).2.1.node_property ⟨1, 1⟩ Property.Width
      = some (PropertyValue.Int 13) :=
  (claim_C1_conflict_policy
    (fun _ => some (Message.PropertyChange 9 ⟨1, 1⟩ Property.Width "13" 5))
    (fun _ => some (PropertyValue.Int 13)) (fun _ => "")
    witnessEngine "pc" "unused" witnessDoc 9 ⟨1, 1⟩ Property.Width "13" 5 0
    (PropertyValue.Int 13) (Node.new ⟨1, 1⟩ NodeType.Rectangle) rfl).2.1
    (by decide) rfl (by decide)

/-- Claim C10: `create_property_change_message` and `add_pending_change` each
increment the shared sequence counter: on an engine with an assigned client
id, the emitted message carries sequence `n = sequence + 1`, the subsequently
registered pending entry carries `n + 1`, and processing an Ack for `n` does
not remove that entry. -/
theorem claim_C10_sequence_gap (from_json : String → Option Message)
    (decode_value : String → Option PropertyValue) (to_json : Message → String)
    (e : SyncEngine) (cid : ClientId) (O : ObjectId) (P : Property)
    (valstr : String) (pv : PropertyValue) (d : Document) (ackJson : String)
    (hc : e.client_id = some cid)
    (h : from_json ackJson = some (Message.Ack (e.sequence + 1))) :
    (SyncEngine.create_property_change_message to_json e O P valstr).2
      = some (to_json (Message.PropertyChange cid.value O P valstr (e.sequence + 1))) ∧
    ((SyncEngine.create_property_change_message to_json e O P valstr).1.add_pending_change
        O P pv).pending_changes
      = e.pending_changes ++
        [{ object_id := O, property := P, value := pv, sequence := e.sequence + 2 }] ∧
    ({ object_id := O, property := P, value := pv, sequence := e.sequence + 2 } : PendingChange)
      ∈ (SyncEngine.process_message from_json decode_value to_json
          ((SyncEngine.create_property_change_message to_json e O P valstr).1.add_pending_change
            O P pv) ackJson d).1.pending_changes := by
  have hcreate : SyncEngine.create_property_change_message to_json e O P valstr =
      ({ e with sequence := e.sequence + 1 },
       some (to_json (Message.PropertyChange cid.value O P valstr (e.sequence + 1)))) := by
    simp [SyncEngine.create_property_change_message, hc]
  refine ⟨by rw [hcreate], by rw [hcreate]; rfl, ?_⟩
  rw [process_message_ack from_json decode_value to_json _ ackJson d _ h]
  rw [hcreate]
  simp only [SyncEngine.add_pending_change, List.mem_filter]
  constructor
  · exact List.mem_append_right _ (List.mem_singleton.mpr rfl)
  · simp

/-- Witness for C10 on a concrete connected engine: the entry registered after
emitting sequence 3 carries sequence 4 and survives the Ack for 3. -/
theorem claim_C10_witness :
    ({ object_id := ⟨1, 1⟩, property := Property.X,
       value := PropertyValue.Int 5, sequence := 4 } : PendingChange)
      ∈ (SyncEngine.process_message (fun _ => some (Message.Ack 3)) (fun _ => none)
          (fun _ => "")
          ((SyncEngine.create_property_change_message (fun _ => "") witnessEngine
            ⟨1, 1⟩ Property.X "5").1.add_pending_change ⟨1, 1⟩ Property.X
            (PropertyValue.Int 5)) "ack" witnessDoc).1.pending_changes :=
  (claim_C10_sequence_gap (fun _ => some (Message.Ack 3)) (fun _ => none)
    (fun _ => "") witnessEngine ⟨7⟩ ⟨1, 1⟩ Property.X "5" (PropertyValue.Int 5)
    witnessDoc "ack" rfl rfl).2.2

/-! ### Claim theorems: fractional ordering bugs -/

/-- Claim C2 (code bug): before the move the scenario's child list is sorted
by order keys, but after `move_before(third, second)` the child list is left
as [first, second, third] with keys "0.3", "0.5", "0.400000000000000": the
list is no longer sorted by order-key comparison, because `move_before`
rewrites the moved node's key after `set_parent` has already sorted the list
and never re-sorts.  This contradicts the code's own `children_map`
documentation ("Children are sorted by their order_index"). -/
theorem claim_C2_children_sorted_bug :
    childrenKeysSorted siblingTree parent0 = true ∧
    siblingMoved.children parent0 = [first0, second0, third0] ∧
    (siblingMoved.children parent0).map (orderIndexIn siblingMoved.nodes)
      = ["0.3", "0.5", "0.400000000000000"] ∧
    childrenKeysSorted siblingMoved parent0 = false := by
  decide

/-- Claim C3 (code bug): `move_before(third, second)` on keys
"0.3"/"0.5"/"0.7" does give third a fresh key strictly between "0.3" and
"0.5" and leaves the other two keys unchanged, but `children(parent)` remains
[first, second, third] instead of the claimed [first, third, second] (the
code's own doc example expects the re-sorted order). -/
theorem claim_C3_move_before_bug :
    orderIndexIn siblingMoved.nodes third0 = "0.400000000000000" ∧
    strLt "0.3" "0.400000000000000" ∧
    strLt "0.400000000000000" "0.5" ∧
    orderIndexIn siblingMoved.nodes first0 = "0.3" ∧
    orderIndexIn siblingMoved.nodes second0 = "0.5" ∧
    siblingMoved.children parent0 = [first0, second0, third0] ∧
    siblingMoved.children parent0 ≠ [first0, third0, second0] := by
  decide

/-- Claim C4 (code bug): the float-based midpoint violates `a < m < b` already
at the first insertion for the keys a = "0.49999999999999999", b = "0.5"
(which `f64` parsing collapses to 0.5): the produced key "0.500000000000000"
sorts strictly after b. -/
theorem claim_C4_midpoint_bug :
    strLt "0.49999999999999999" "0.5" ∧
    fractional_midpoint "0.49999999999999999" "0.5" = "0.500000000000000" ∧
    strLt "0.5" (fractional_midpoint "0.49999999999999999" "0.5") ∧
    ¬ strLt (fractional_midpoint "0.49999999999999999" "0.5") "0.5" := by
  decide

/-! ### Claim C6: dangling references -/

/-- Counterexample to C6: after a completed `set_parent` on an empty tree,
the child id is a key of the parent index and a member of the parent's child
list while absent from the node mapping: dangling references do survive a
completed operation when `set_parent` is called with absent ids. -/
theorem claim_C6_counterexample :
    alistFind ((DocumentTree.new parent0).set_parent first0 second0).parent_map first0
      = some second0 ∧
    first0 ∈ ((DocumentTree.new parent0).set_parent first0 second0).children second0 ∧
    alistFind ((DocumentTree.new parent0).set_parent first0 second0).nodes first0
      = none := by
  decide

end Anatsui
